import Mathlib

/-!
Verification of the `AsyncLock` keyed mutual-exclusion manager
(`src/async-lock.ts`).

The TypeScript class is embedded as a small-step operational semantics.
Following the cooperative scheduling model of the library (every bookkeeping
block of the source runs to completion without interleaving), each of the
following synchronous blocks of the source is one atomic transition:

* a call to `acquire(key, fn, cb?, opts?)` (lines 29-128),
* a pending waiter's timer firing (the `setTimeout` body, lines 122-125),
* a running task body signalling completion, which runs `done(true, err, ret)`
  (lines 52-78) including the recursive advancement through timed-out
  ("ghost") waiters.

State components mirror the mutable data of the source: the lock table
`_queue` (a string-keyed record of arrays of queued waiter thunks — here the
waiters are identified by numeric acquisition ids), and the per-acquisition
`resolved` flag and pending `timer` captured by each `acquire` closure.
`running`, and the `pushLog` / `serveLog` / `startedLog` / `delivered`
histories, are auxiliary instrumentation used only to state properties; no
transition reads them.
-/

namespace AsyncLock

/-- Outcome delivered to a caller's completion channel: the admission error
`new Error('Too many pending tasks')` (line 115), the timeout error
`new Error('async-lock timed out')` (line 124), or the task body's own
`(err, ret)` report (`fromTask` carries the task's error, if any). -/
inductive Outcome where
  | tooManyPending : Outcome
  | timedOut : Outcome
  | fromTask : Option String → Outcome
deriving DecidableEq, Repr

/-- Options record (the `AsyncLockOptions` import; its fields are determined
by their uses `opts.timeout` and `opts.maxPending` in the constructor,
lines 17-18, and `opts.timeout` in `acquire`, line 121). -/
structure AsyncLockOptions where
  timeout : Option Nat := none
  maxPending : Option Nat := none
deriving DecidableEq, Repr

/-- Manager configuration held by an `AsyncLock` instance: the readonly
fields `_timeout` and `_maxPending` (lines 12-13). -/
structure Config where
  timeout : Nat
  maxPending : Nat
deriving DecidableEq, Repr

/-- JavaScript `v || d` on an optional number: `undefined` and `0` are both
falsy, so both fall back to the default.  Used by the constructor
(lines 17-18) and by the effective timeout `opts.timeout || this._timeout`
(line 121). -/
def orElseNum (v : Option Nat) (d : Nat) : Nat :=
  match v with
  | none => d
  | some n => if n = 0 then d else n

/-- Constructor, lines 16-19: `_timeout = opts.timeout || DEFAULT_TIMEOUT`
(`DEFAULT_TIMEOUT = 0`), `_maxPending = opts.maxPending || DEFAULT_MAX_PENDING`
(`DEFAULT_MAX_PENDING = 1000`). -/
def mkConfig (opts : AsyncLockOptions) : Config :=
  { timeout := orElseNum opts.timeout 0
    maxPending := orElseNum opts.maxPending 1000 }

/-- Lookup in the lock table `this._queue` (`this._queue[key]`, returning
`undefined` when the key is absent). -/
def lookupQ : List (String × List Nat) → String → Option (List Nat)
  | [], _ => none
  | (k', q) :: t, k => if k' = k then some q else lookupQ t k

/-- Assignment `this._queue[key] = q`: replace the entry if the key is
present, otherwise append a fresh entry. -/
def setQTable : List (String × List Nat) → String → List Nat → List (String × List Nat)
  | [], k, q => [(k, q)]
  | (k', q') :: t, k, q => if k' = k then (k, q) :: t else (k', q') :: setQTable t k q

/-- Deletion `delete this._queue[key]`. -/
def eraseKeyTable : List (String × List Nat) → String → List (String × List Nat)
  | [], _ => []
  | (k', q') :: t, k => if k' = k then t else (k', q') :: eraseKeyTable t k

/-- Lookup of an acquisition id in an association list (used for the key each
`acquire` closure captured). -/
def lookupN : List (Nat × String) → Nat → Option String
  | [], _ => none
  | (a, k) :: t, aid => if a = aid then some k else lookupN t aid

/-- Global state of one `AsyncLock` instance together with the per-call
closure state of every acquisition seen so far.  Acquisitions are identified
by numeric ids; `keyOf` records the `key` argument each one captured. -/
structure LockState where
  /-- The lock table `this._queue` (line 11), as an insertion-ordered
  association list, matching a JavaScript string-keyed record. -/
  table : List (String × List Nat)
  /-- Key captured by each acquisition's closure. -/
  keyOf : List (Nat × String)
  /-- Ids already used by some acquisition (freshness discipline). -/
  seen : List Nat
  /-- Acquisition ids whose `resolved` flag (line 49) is `true`. -/
  resolved : List Nat
  /-- Acquisition ids whose `timer` (line 50) is currently armed. -/
  timer : List Nat
  /-- Acquisition ids whose task body has been started and has not yet
  signalled completion. -/
  running : List Nat
  /-- History: each enqueue `this._queue[key].push(...)` (line 116), in
  order, as `(key, id)`. -/
  pushLog : List (String × Nat)
  /-- History: each dequeue `this._queue[key].shift()()` (line 76), in
  order, as `(key, id, skipped)` where `skipped` records whether the waiter
  was already resolved (a timed-out ghost) at that moment. -/
  serveLog : List (String × Nat × Bool)
  /-- History: each task-body start, in order, as `(id, key, viaQueue)`
  where `viaQueue` distinguishes a dequeued waiter from an immediate run. -/
  startedLog : List (Nat × String × Bool)
  /-- History: each outcome delivery to a caller (callback invocation or
  promise settlement, lines 57-68), in order. -/
  delivered : List (Nat × Outcome)
deriving DecidableEq, Repr

/-- Initial state of a fresh `AsyncLock` instance. -/
def initState : LockState :=
  { table := [], keyOf := [], seen := [], resolved := [], timer := [],
    running := [], pushLog := [], serveLog := [], startedLog := [],
    delivered := [] }

/-- Key captured by acquisition `aid` (defaulting to `""` for ids never
seen). -/
def keyAt (s : LockState) (aid : Nat) : String :=
  (lookupN s.keyOf aid).getD ""

/-- Queue currently stored for `k`, or `[]` when the key is absent. -/
def queueD (s : LockState) (k : String) : List Nat :=
  (lookupQ s.table k).getD []

/-- Body of `exec` once the resolved/timer checks have passed (lines 86-105):
`clearTimeout(timer)` and invocation of the task body `fn`.  The completion
callback / `nodeify` handler later signals completion as a separate
transition. -/
def startWaiter (s : LockState) (aid : Nat) (k : String) (viaQueue : Bool) : LockState :=
  { s with timer := s.timer.erase aid
           running := aid :: s.running
           startedLog := s.startedLog ++ [(aid, k, viaQueue)] }

/-- Function `done` with `locked = false` (lines 52-78): the key-deletion and
next-waiter blocks are both guarded by `locked`, so only the delivery guard
remains — deliver the outcome unless `resolved` is already set, and set it. -/
def doneFalse (s : LockState) (aid : Nat) (out : Outcome) : LockState :=
  if aid ∈ s.resolved then s
  else { s with delivered := s.delivered ++ [(aid, out)]
                resolved := aid :: s.resolved }

/-- Queue advancement: `this._queue[key].shift()()` (line 76) followed by the
dequeued waiter's `exec(true)` (lines 81-105), which for a resolved (ghost)
waiter is `done(true)` again — whose own guarded blocks are: delete the key
if the queue is now empty (lines 52-54), deliver nothing (already resolved),
and shift the next waiter (lines 72-77).  That recursion is structural on the
queue, so it is expressed here as recursion on the queue's list: an empty
queue deletes the key, a resolved head is skipped (logged in `serveLog` with
`skipped = true`), and the first unresolved head is started. -/
def advanceGo (k : String) : LockState → List Nat → LockState
  | s, [] => { s with table := eraseKeyTable s.table k }
  | s, w :: rest =>
      if w ∈ s.resolved then
        advanceGo k
          { s with table := setQTable s.table k rest
                   serveLog := s.serveLog ++ [(k, w, true)] } rest
      else
        startWaiter
          { s with table := setQTable s.table k rest
                   serveLog := s.serveLog ++ [(k, w, false)] } w k true

/-- Function `done` with `locked = true` (lines 52-78), as run by a holder's
completion: delete the key if its queue is empty (lines 52-54); deliver the
outcome unless already resolved (lines 56-69); if the key is still present,
shift and run the next waiter (lines 72-77), chaining through ghosts via
`advanceGo`.  After the first block the table can only hold a non-empty queue
for `k`, so the `advanceGo` call is never reached with `[]` directly. -/
def doneTrue (s : LockState) (aid : Nat) (k : String) (out : Outcome) : LockState :=
  let s1 : LockState :=
    if lookupQ s.table k = some [] then { s with table := eraseKeyTable s.table k } else s
  let s2 : LockState :=
    if aid ∈ s1.resolved then s1
    else { s1 with delivered := s1.delivered ++ [(aid, out)]
                   resolved := aid :: s1.resolved }
  match lookupQ s2.table k with
  | none => s2
  | some l => advanceGo k s2 l

/-- Timer callback (lines 122-125): `timer = null;
done(false, new Error('async-lock timed out'))`. -/
def fireTimer (s : LockState) (aid : Nat) : LockState :=
  doneFalse { s with timer := s.timer.erase aid } aid Outcome.timedOut

/-- A running task body signals completion (its callback, guarded by `called`,
lines 92-98, or the `nodeify` handler, lines 100-104): the body is no longer
running and `done(true, err, ret)` executes. -/
def completeTask (s : LockState) (aid : Nat) (k : String) (out : Outcome) : LockState :=
  doneTrue { s with running := s.running.erase aid } aid k out

/-- Single-key `acquire` (lines 29-128) for a fresh acquisition id `aid`:
throw synchronously when `fn` is not callable (lines 33-35); when the key is
absent create its (empty) queue and run the task at once (lines 111-112);
when the queue is at the `maxPending` limit reject via
`done(false, new Error('Too many pending tasks'))` (lines 114-115); otherwise
push a waiter and, when the effective timeout `opts.timeout || this._timeout`
is non-zero, arm its timer (lines 116-126). -/
def acquireFn (cfg : Config) (s : LockState) (aid : Nat) (k : String)
    (callable : Bool) (optT : Option Nat) : Except String LockState :=
  if !callable then Except.error "You must pass a function to execute"
  else
    let s0 : LockState := { s with seen := aid :: s.seen, keyOf := (aid, k) :: s.keyOf }
    match lookupQ s.table k with
    | none =>
        Except.ok (startWaiter { s0 with table := setQTable s0.table k [] } aid k false)
    | some q =>
        if cfg.maxPending ≤ q.length then
          Except.ok (doneFalse s0 aid Outcome.tooManyPending)
        else
          let s1 : LockState :=
            { s0 with table := setQTable s0.table k (q ++ [aid])
                      pushLog := s0.pushLog ++ [(k, aid)] }
          Except.ok (if orElseNum optT cfg.timeout ≠ 0 then { s1 with timer := aid :: s1.timer } else s1)

/-- Method `isBusy` (lines 181-187): with a key,
`!!this._queue[key]`; without one, `Object.keys(this._queue).length > 0`. -/
def isBusy (s : LockState) (key : Option String) : Bool :=
  match key with
  | none => decide (0 < s.table.length)
  | some k => (lookupQ s.table k).isSome

/-- One atomic transition of the manager: a call to `acquire` on a callable
task with a fresh id, a pending timer firing, or a running task body
signalling completion with its own outcome. -/
inductive Step (cfg : Config) : LockState → LockState → Prop where
  | acquire : ∀ (s s' : LockState) (aid : Nat) (k : String) (optT : Option Nat),
      aid ∉ s.seen → acquireFn cfg s aid k true optT = Except.ok s' → Step cfg s s'
  | fire : ∀ (s : LockState) (aid : Nat),
      aid ∈ s.timer → Step cfg s (fireTimer s aid)
  | complete : ∀ (s : LockState) (aid : Nat) (e : Option String),
      aid ∈ s.running → Step cfg s (completeTask s aid (keyAt s aid) (Outcome.fromTask e))

/-- States reachable from a fresh `AsyncLock` instance. -/
inductive Reachable (cfg : Config) : LockState → Prop where
  | init : Reachable cfg initState
  | step : ∀ {s s' : LockState}, Reachable cfg s → Step cfg s s' → Reachable cfg s'

/-- Enqueue history restricted to one key, in order. -/
def pushForL (k : String) : List (String × Nat) → List Nat
  | [] => []
  | p :: t => if p.1 = k then p.2 :: pushForL k t else pushForL k t

/-- Dequeue (service) history restricted to one key, in order. -/
def serveForL (k : String) : List (String × Nat × Bool) → List Nat
  | [] => []
  | e :: t => if e.1 = k then e.2.1 :: serveForL k t else serveForL k t

/-- Dequeue history restricted to one key and to waiters that were live
(not skipped) when served, in order. -/
def liveServeForL (k : String) : List (String × Nat × Bool) → List Nat
  | [] => []
  | e :: t => if e.1 = k ∧ e.2.2 = false then e.2.1 :: liveServeForL k t else liveServeForL k t

/-- Start history restricted to one key and to starts of dequeued waiters
(excluding immediate runs of a free key), in order. -/
def startedQueuedForL (k : String) : List (Nat × String × Bool) → List Nat
  | [] => []
  | e :: t => if e.2.1 = k ∧ e.2.2 = true then e.1 :: startedQueuedForL k t else startedQueuedForL k t

/-- Enqueue order for key `k` in state `s`. -/
def pushFor (s : LockState) (k : String) : List Nat := pushForL k s.pushLog

/-- Service (dequeue) order for key `k` in state `s`. -/
def serveFor (s : LockState) (k : String) : List Nat := serveForL k s.serveLog

/-- Service order for key `k` restricted to waiters served live. -/
def liveServeFor (s : LockState) (k : String) : List Nat := liveServeForL k s.serveLog

/-- Start order for key `k` restricted to dequeued waiters. -/
def startedQueuedFor (s : LockState) (k : String) : List Nat := startedQueuedForL k s.startedLog

/-!
Batch acquisition (`_acquireBatch`, lines 144-174).  The method builds a
nested chain of single-key acquisitions out of the task: `getFn(key, fnx)`
(lines 150-154) wraps `fnx` so that, once started, it calls
`this.acquire(key, fnx, cb, opts)` and completes with that inner
acquisition's outcome.  The chain is built by
`keys.reverse().forEach(key => fnx = getFn(key, fnx))` (lines 156-159);
JavaScript `Array.prototype.reverse` reverses the caller's array *in place*
and returns it, so after the call the caller's array holds the reversed
keys.  The chain is modelled syntactically and its launch behaviour
(`runNested` / `runNestedE`) unfolds §4.1 single-key semantics for each
level: an admitted acquisition runs its wrapped body while the key is held
and releases the key when the body completes; a failed acquisition delivers
the error to the wrapper's callback and nothing runs under that key.
-/

/-- Nested acquisition chain: the bare task, or a single-key acquisition of
`key` (with the per-call options the wrapper captured) around an inner
chain. -/
inductive Chain where
  | task : Chain
  | acquireThen : String → AsyncLockOptions → Chain → Chain
deriving DecidableEq, Repr

/-- Wrapper builder `getFn(key, fn)` (lines 150-154). -/
def getFn (key : String) (opts : AsyncLockOptions) (fnx : Chain) : Chain :=
  Chain.acquireThen key opts fnx

/-- Build of `_acquireBatch` (lines 156-159): fold `getFn` over the reversed
key array.  The second component is the contents of the caller's `keys`
array after the call — `reverse()` mutated it in place. -/
def acquireBatchBuild (keys : List String) (opts : AsyncLockOptions) : Chain × List String :=
  (keys.reverse.foldl (fun fnx key => getFn key opts fnx) Chain.task, keys.reverse)

/-- Keys and options of a chain, from the outermost acquisition inwards. -/
def chainLevels : Chain → List (String × AsyncLockOptions)
  | Chain.task => []
  | Chain.acquireThen k o c => (k, o) :: chainLevels c

/-- Observable events of a batch launch: a key acquisition starting its
wrapped body, a failed key acquisition, the innermost task running, and a
key's release (the completion of its wrapping acquisition). -/
inductive BEvent where
  | acq : String → BEvent
  | acqFail : String → BEvent
  | runTask : BEvent
  | rel : String → BEvent
deriving DecidableEq, Repr

/-- Launch of a chain when every acquisition is admitted and runs: acquiring
`k` starts the wrapped inner chain, and `k` is released when the inner chain
completes (the wrapper's callback fires `done(true, ...)` for `k`). -/
def runNested : Chain → List BEvent
  | Chain.task => [BEvent.runTask]
  | Chain.acquireThen k _ c => BEvent.acq k :: (runNested c ++ [BEvent.rel k])

/-- Launch of a chain against an environment that decides, for each key,
whether its acquisition is admitted (`none`) or fails with an error
(`some e` — a timeout or pending-limit rejection delivered to the wrapper's
callback).  A failed level runs nothing beneath it and propagates its error
outwards; each admitted outer level still completes (releasing its key) with
that propagated error, exactly as `done(true, err)` does. -/
def runNestedE : Chain → (String → Option String) → List BEvent × Option String
  | Chain.task, _ => ([BEvent.runTask], none)
  | Chain.acquireThen k _ c, env =>
      match env k with
      | some e => ([BEvent.acqFail k], some e)
      | none =>
          let r := runNestedE c env
          (BEvent.acq k :: (r.1 ++ [BEvent.rel k]), r.2)

/-! Basic lemmas about the table operations. -/

theorem lookupQ_set_self (t : List (String × List Nat)) (k : String) (q : List Nat) :
    lookupQ (setQTable t k q) k = some q := by
  induction t with
  | nil => simp [setQTable, lookupQ]
  | cons p t ih =>
      obtain ⟨k0, q0⟩ := p
      by_cases h : k0 = k
      · simp [setQTable, lookupQ, h]
      · simp [setQTable, lookupQ, h, ih]

theorem lookupQ_set_ne (t : List (String × List Nat)) (k k' : String) (q : List Nat)
    (h : k' ≠ k) : lookupQ (setQTable t k q) k' = lookupQ t k' := by
  induction t with
  | nil => simp [setQTable, lookupQ, Ne.symm h]
  | cons p t ih =>
      obtain ⟨k0, q0⟩ := p
      by_cases hp : k0 = k
      · subst hp
        simp [setQTable, lookupQ, Ne.symm h, h]
      · by_cases hp' : k0 = k'
        · subst hp'
          simp [setQTable, lookupQ, hp, h]
        · simp [setQTable, lookupQ, hp, hp', ih]

theorem lookupQ_erase_ne (t : List (String × List Nat)) (k k' : String)
    (h : k' ≠ k) : lookupQ (eraseKeyTable t k) k' = lookupQ t k' := by
  induction t with
  | nil => simp [eraseKeyTable, lookupQ]
  | cons p t ih =>
      obtain ⟨k0, q0⟩ := p
      by_cases hp : k0 = k
      · subst hp
        simp [eraseKeyTable, lookupQ, Ne.symm h]
      · by_cases hp' : k0 = k'
        · subst hp'
          simp [eraseKeyTable, lookupQ, hp, h]
        · simp [eraseKeyTable, lookupQ, hp, hp', ih]

theorem lookupQ_eq_none_iff (t : List (String × List Nat)) (k : String) :
    lookupQ t k = none ↔ k ∉ t.map Prod.fst := by
  induction t with
  | nil => simp [lookupQ]
  | cons p t ih =>
      obtain ⟨k0, q0⟩ := p
      by_cases hp : k0 = k
      · simp [lookupQ, hp]
      · simp [lookupQ, hp, ih, Ne.symm hp]

theorem lookupQ_isSome_mem (t : List (String × List Nat)) (k : String)
    (h : (lookupQ t k).isSome = true) : k ∈ t.map Prod.fst := by
  by_contra hk
  rw [← lookupQ_eq_none_iff] at hk
  rw [hk] at h
  simp at h

theorem eraseKeyTable_sublist (t : List (String × List Nat)) (k : String) :
    (eraseKeyTable t k).Sublist t := by
  induction t with
  | nil => simp [eraseKeyTable]
  | cons p t ih =>
      obtain ⟨k0, q0⟩ := p
      by_cases hp : k0 = k
      · simp only [eraseKeyTable, hp, if_pos]
        exact List.sublist_cons_self (k, q0) t
      · simp only [eraseKeyTable, hp, if_neg, not_false_iff]
        exact ih.cons₂ (k0, q0)

theorem lookupQ_erase_self (t : List (String × List Nat)) (k : String)
    (h : (t.map Prod.fst).Nodup) : lookupQ (eraseKeyTable t k) k = none := by
  induction t with
  | nil => simp [eraseKeyTable, lookupQ]
  | cons p t ih =>
      obtain ⟨k0, q0⟩ := p
      simp only [List.map_cons, List.nodup_cons] at h
      by_cases hp : k0 = k
      · subst hp
        simp only [eraseKeyTable, if_pos rfl]
        rw [lookupQ_eq_none_iff]
        exact h.1
      · simp only [eraseKeyTable, hp, if_neg, not_false_iff, lookupQ]
        exact ih h.2

theorem keys_set_present (t : List (String × List Nat)) (k : String) (q q₀ : List Nat)
    (h : lookupQ t k = some q₀) : (setQTable t k q).map Prod.fst = t.map Prod.fst := by
  induction t with
  | nil => simp [lookupQ] at h
  | cons p t ih =>
      obtain ⟨k0, q0⟩ := p
      by_cases hp : k0 = k
      · simp [setQTable, hp]
      · simp only [lookupQ, hp, if_neg, not_false_iff] at h
        simp [setQTable, hp, ih h]

theorem keys_set_absent (t : List (String × List Nat)) (k : String) (q : List Nat)
    (h : lookupQ t k = none) : (setQTable t k q).map Prod.fst = t.map Prod.fst ++ [k] := by
  induction t with
  | nil => simp [setQTable]
  | cons p t ih =>
      obtain ⟨k0, q0⟩ := p
      by_cases hp : k0 = k
      · simp [lookupQ, hp] at h
      · simp only [lookupQ, hp, if_neg, not_false_iff] at h
        simp [setQTable, hp, ih h]

theorem lookupN_cons_self (l : List (Nat × String)) (a : Nat) (k : String) :
    lookupN ((a, k) :: l) a = some k := by
  simp [lookupN]

theorem lookupN_cons_ne (l : List (Nat × String)) (a b : Nat) (k : String)
    (h : a ≠ b) : lookupN ((a, k) :: l) b = lookupN l b := by
  simp [lookupN, h]

theorem keyAt_acquire_self (s : LockState) (aid : Nat) (k : String) :
    keyAt { s with seen := aid :: s.seen, keyOf := (aid, k) :: s.keyOf } aid = k := by
  simp [keyAt, lookupN_cons_self]

/-! Basic lemmas about the history projections. -/

theorem pushForL_append (k : String) (l l' : List (String × Nat)) :
    pushForL k (l ++ l') = pushForL k l ++ pushForL k l' := by
  induction l with
  | nil => simp [pushForL]
  | cons p t ih =>
      by_cases hp : p.1 = k <;> simp [pushForL, hp, ih]

theorem serveForL_append (k : String) (l l' : List (String × Nat × Bool)) :
    serveForL k (l ++ l') = serveForL k l ++ serveForL k l' := by
  induction l with
  | nil => simp [serveForL]
  | cons p t ih =>
      by_cases hp : p.1 = k <;> simp [serveForL, hp, ih]

theorem liveServeForL_append (k : String) (l l' : List (String × Nat × Bool)) :
    liveServeForL k (l ++ l') = liveServeForL k l ++ liveServeForL k l' := by
  induction l with
  | nil => simp [liveServeForL]
  | cons p t ih =>
      by_cases hp : p.1 = k ∧ p.2.2 = false <;> simp [liveServeForL, hp, ih]

theorem startedQueuedForL_append (k : String) (l l' : List (Nat × String × Bool)) :
    startedQueuedForL k (l ++ l') = startedQueuedForL k l ++ startedQueuedForL k l' := by
  induction l with
  | nil => simp [startedQueuedForL]
  | cons p t ih =>
      by_cases hp : p.2.1 = k ∧ p.2.2 = true <;> simp [startedQueuedForL, hp, ih]

theorem pushForL_single_eq (k : String) (a : Nat) : pushForL k [(k, a)] = [a] := by
  simp [pushForL]

theorem pushForL_single_ne (k k' : String) (a : Nat) (h : k' ≠ k) :
    pushForL k' [(k, a)] = [] := by simp [pushForL, Ne.symm h]

theorem serveForL_single_eq (k : String) (w : Nat) (b : Bool) :
    serveForL k [(k, w, b)] = [w] := by simp [serveForL]

theorem serveForL_single_ne (k k' : String) (w : Nat) (b : Bool) (h : k' ≠ k) :
    serveForL k' [(k, w, b)] = [] := by simp [serveForL, Ne.symm h]

theorem liveServeForL_single_ghost (k : String) (w : Nat) :
    liveServeForL k [(k, w, true)] = [] := by simp [liveServeForL]

theorem liveServeForL_single_live (k : String) (w : Nat) :
    liveServeForL k [(k, w, false)] = [w] := by simp [liveServeForL]

theorem liveServeForL_single_ne (k k' : String) (w : Nat) (b : Bool) (h : k' ≠ k) :
    liveServeForL k' [(k, w, b)] = [] := by
  have : ¬((k, w, b).1 = k' ∧ (k, w, b).2.2 = false) := by
    intro hc
    exact h hc.1.symm
  simp [liveServeForL, this]

theorem startedQueuedForL_single_queued (k : String) (w : Nat) :
    startedQueuedForL k [(w, k, true)] = [w] := by simp [startedQueuedForL]

theorem startedQueuedForL_single_immediate (k : String) (w : Nat) :
    startedQueuedForL k [(w, k, false)] = [] := by simp [startedQueuedForL]

theorem startedQueuedForL_single_ne (k k' : String) (w : Nat) (b : Bool) (h : k' ≠ k) :
    startedQueuedForL k' [(w, k, b)] = [] := by
  have : ¬((w, k, b).2.1 = k' ∧ (w, k, b).2.2 = true) := by
    intro hc
    exact h hc.1.symm
  simp [startedQueuedForL, this]

/-! Frame lemmas: fields the queue-advancement chain never touches. -/

theorem advanceGo_frame (k : String) (l : List Nat) (s : LockState) :
    (advanceGo k s l).delivered = s.delivered ∧
    (advanceGo k s l).resolved = s.resolved ∧
    (advanceGo k s l).seen = s.seen ∧
    (advanceGo k s l).keyOf = s.keyOf ∧
    (advanceGo k s l).pushLog = s.pushLog := by
  induction l generalizing s with
  | nil => simp [advanceGo]
  | cons w rest ih =>
      by_cases hw : w ∈ s.resolved
      · simpa [advanceGo, hw] using ih _
      · simp [advanceGo, hw, startWaiter]

/-- Exactly-once bookkeeping: every delivered pair has its `resolved` flag
set, and no acquisition id is delivered to twice. -/
def DeliveryInv (s : LockState) : Prop :=
  (∀ p ∈ s.delivered, p.1 ∈ s.resolved) ∧ (s.delivered.map Prod.fst).Nodup

theorem deliveryInv_doneFalse {s : LockState} (h : DeliveryInv s) (aid : Nat) (out : Outcome) :
    DeliveryInv (doneFalse s aid out) := by
  by_cases hr : aid ∈ s.resolved
  · simpa [doneFalse, hr] using h
  · obtain ⟨h1, h2⟩ := h
    refine ⟨?_, ?_⟩
    · intro p hp
      simp only [doneFalse, hr, if_neg, not_false_iff, List.mem_append, List.mem_singleton] at hp ⊢
      rcases hp with hp | hp
      · exact List.mem_cons_of_mem _ (h1 p hp)
      · subst hp
        exact List.mem_cons_self _ _
    · simp only [doneFalse, hr, if_neg, not_false_iff, List.map_append, List.map_cons,
        List.map_nil]
      rw [List.nodup_append]
      refine ⟨h2, List.nodup_singleton _, ?_⟩
      intro a ha hb
      simp only [List.mem_singleton] at hb
      subst hb
      simp only [List.mem_map] at ha
      obtain ⟨p, hp, hpa⟩ := ha
      exact hr (hpa ▸ h1 p hp)

theorem deliveryInv_doneTrue {s : LockState} (h : DeliveryInv s) (aid : Nat) (k : String)
    (out : Outcome) : DeliveryInv (doneTrue s aid k out) := by
  obtain ⟨h1, h2⟩ := h
  have hstep : ∀ s₂ : LockState, DeliveryInv s₂ →
      DeliveryInv (match lookupQ s₂.table k with
        | none => s₂
        | some l => advanceGo k s₂ l) := by
    intro s₂ hs₂
    cases hq : lookupQ s₂.table k with
    | none => simpa using hs₂
    | some l =>
        obtain ⟨hd, hr, -⟩ := advanceGo_frame k l s₂
        simp only []
        rw [DeliveryInv, hd, hr]
        exact hs₂
  have hmid : DeliveryInv
      (if lookupQ s.table k = some [] then { s with table := eraseKeyTable s.table k } else s) := by
    split <;> exact ⟨h1, h2⟩
  rw [doneTrue]
  apply hstep
  generalize hgen :
    (if lookupQ s.table k = some [] then { s with table := eraseKeyTable s.table k } else s) = s₁
      at hmid
  by_cases hr : aid ∈ s₁.resolved
  · simpa [hr] using hmid
  · obtain ⟨g1, g2⟩ := hmid
    refine ⟨?_, ?_⟩
    · intro p hp
      simp only [hr, if_neg, not_false_iff, List.mem_append, List.mem_singleton] at hp ⊢
      rcases hp with hp | hp
      · exact List.mem_cons_of_mem _ (g1 p hp)
      · subst hp
        exact List.mem_cons_self _ _
    · simp only [hr, if_neg, not_false_iff, List.map_append, List.map_cons, List.map_nil]
      rw [List.nodup_append]
      refine ⟨g2, List.nodup_singleton _, ?_⟩
      intro a ha hb
      simp only [List.mem_singleton] at hb
      subst hb
      simp only [List.mem_map] at ha
      obtain ⟨p, hp, hpa⟩ := ha
      exact hr (hpa ▸ g1 p hp)

theorem deliveryInv_step {cfg : Config} {s s' : LockState} (h : DeliveryInv s)
    (hs : Step cfg s s') : DeliveryInv s' := by
  cases hs with
  | acquire s' aid k optT hfresh heq =>
      simp only [acquireFn, Bool.not_true, Bool.false_eq_true, if_neg, not_false_iff] at heq
      cases hq : lookupQ s.table k with
      | none =>
          rw [hq] at heq
          simp only [Except.ok.injEq] at heq
          subst heq
          exact ⟨fun p hp => h.1 p hp, h.2⟩
      | some q =>
          rw [hq] at heq
          by_cases hfull : cfg.maxPending ≤ q.length
          · simp only [hfull, if_pos, Except.ok.injEq] at heq
            subst heq
            exact @deliveryInv_doneFalse
              { s with seen := aid :: s.seen, keyOf := (aid, k) :: s.keyOf }
              ⟨fun p hp => h.1 p hp, h.2⟩ aid Outcome.tooManyPending
          · simp only [hfull, if_neg, not_false_iff, Except.ok.injEq] at heq
            subst heq
            split <;> exact ⟨fun p hp => h.1 p hp, h.2⟩
  | fire aid hmem =>
      show DeliveryInv (doneFalse { s with timer := s.timer.erase aid } aid Outcome.timedOut)
      exact @deliveryInv_doneFalse { s with timer := s.timer.erase aid }
        ⟨fun p hp => h.1 p hp, h.2⟩ aid Outcome.timedOut
  | complete aid e hmem =>
      show DeliveryInv
        (doneTrue { s with running := s.running.erase aid } aid (keyAt s aid) (Outcome.fromTask e))
      exact @deliveryInv_doneTrue { s with running := s.running.erase aid }
        ⟨fun p hp => h.1 p hp, h.2⟩ aid (keyAt s aid) (Outcome.fromTask e)

theorem reachable_deliveryInv {cfg : Config} {s : LockState} (h : Reachable cfg s) :
    DeliveryInv s := by
  induction h with
  | init => exact ⟨by simp [initState], by simp [initState]⟩
  | step _ hs ih => exact deliveryInv_step ih hs

/-! Distinctness of the lock table's keys (a JavaScript record cannot hold a
key twice). -/

theorem nodup_keys_set (t : List (String × List Nat)) (k : String) (q : List Nat)
    (h : (t.map Prod.fst).Nodup) : ((setQTable t k q).map Prod.fst).Nodup := by
  cases hq : lookupQ t k with
  | none =>
      rw [keys_set_absent t k q hq]
      have hk : k ∉ t.map Prod.fst := (lookupQ_eq_none_iff t k).mp hq
      rw [List.nodup_append]
      refine ⟨h, List.nodup_singleton k, ?_⟩
      intro a ha hb
      simp only [List.mem_singleton] at hb
      subst hb
      exact hk ha
  | some q₀ =>
      rw [keys_set_present t k q q₀ hq]
      exact h

theorem advanceGo_tableNodup (k : String) (l : List Nat) (s : LockState)
    (h : (s.table.map Prod.fst).Nodup) :
    (((advanceGo k s l).table).map Prod.fst).Nodup := by
  induction l generalizing s with
  | nil =>
      simp only [advanceGo]
      exact ((eraseKeyTable_sublist s.table k).map Prod.fst).nodup h
  | cons w rest ih =>
      by_cases hw : w ∈ s.resolved
      · simp only [advanceGo, hw, if_pos]
        exact ih _ (nodup_keys_set s.table k rest h)
      · simp only [advanceGo, hw, if_neg, not_false_iff, startWaiter]
        exact nodup_keys_set s.table k rest h

theorem tableNodup_step {cfg : Config} {s s' : LockState}
    (h : (s.table.map Prod.fst).Nodup) (hs : Step cfg s s') :
    (s'.table.map Prod.fst).Nodup := by
  cases hs with
  | acquire s' aid k optT hfresh heq =>
      simp only [acquireFn, Bool.not_true, Bool.false_eq_true, if_neg, not_false_iff] at heq
      cases hq : lookupQ s.table k with
      | none =>
          rw [hq] at heq
          simp only [Except.ok.injEq] at heq
          subst heq
          simpa [startWaiter] using nodup_keys_set s.table k [] h
      | some q =>
          rw [hq] at heq
          by_cases hfull : cfg.maxPending ≤ q.length
          · simp only [hfull, if_pos, Except.ok.injEq] at heq
            subst heq
            by_cases hr : aid ∈ s.resolved <;> simpa [doneFalse, hr] using h
          · simp only [hfull, if_neg, not_false_iff, Except.ok.injEq] at heq
            subst heq
            split <;> simpa using nodup_keys_set s.table k (q ++ [aid]) h
  | fire aid hmem =>
      by_cases hr : aid ∈ s.resolved <;> simpa [fireTimer, doneFalse, hr] using h
  | complete aid e hmem =>
      show (((doneTrue { s with running := s.running.erase aid } aid (keyAt s aid)
        (Outcome.fromTask e)).table).map Prod.fst).Nodup
      set k := keyAt s aid with hk
      rw [doneTrue]
      have h₁ : ∀ s₁ : LockState, (s₁.table.map Prod.fst).Nodup →
          (((match lookupQ s₁.table k with
             | none => s₁
             | some l => advanceGo k s₁ l).table).map Prod.fst).Nodup := by
        intro s₁ h₁
        cases hq : lookupQ s₁.table k with
        | none => simpa using h₁
        | some l => simpa using advanceGo_tableNodup k l s₁ h₁
      apply h₁
      split
      · split
        · exact ((eraseKeyTable_sublist s.table k).map Prod.fst).nodup h
        · exact ((eraseKeyTable_sublist s.table k).map Prod.fst).nodup h
      · split
        · exact h
        · exact h

theorem reachable_tableNodup {cfg : Config} {s : LockState} (h : Reachable cfg s) :
    (s.table.map Prod.fst).Nodup := by
  induction h with
  | init => simp [initState]
  | step _ hs ih => exact tableNodup_step ih hs

/-! FIFO bookkeeping invariant. -/

/-- FIFO bookkeeping: for every key, the enqueue history equals the service
history followed by the current queue (service strictly in arrival order,
one queue slot per service step), and the dequeued-starts history equals the
live (non-skipped) service history (skipped ghosts never start, live waiters
start exactly when served). -/
def LogInv (s : LockState) : Prop :=
  ∀ k : String, pushFor s k = serveFor s k ++ queueD s k ∧
    startedQueuedFor s k = liveServeFor s k

theorem advanceGo_logInv (k : String) (l : List Nat) (s : LockState)
    (ht : (s.table.map Prod.fst).Nodup)
    (hq : lookupQ s.table k = some l) (h : LogInv s) : LogInv (advanceGo k s l) := by
  induction l generalizing s with
  | nil =>
      simp only [advanceGo]
      intro k'
      by_cases hk : k' = k
      · subst hk
        obtain ⟨h1, h2⟩ := h k'
        refine ⟨?_, h2⟩
        have hzero : queueD s k' = [] := by rw [queueD, hq]; rfl
        rw [hzero, List.append_nil] at h1
        simp only [pushFor, serveFor, queueD, lookupQ_erase_self s.table k' ht, Option.getD_none,
          List.append_nil]
        exact h1
      · obtain ⟨h1, h2⟩ := h k'
        refine ⟨?_, h2⟩
        simpa only [pushFor, serveFor, queueD, lookupQ_erase_ne s.table k k' hk] using h1
  | cons w rest ih =>
      by_cases hw : w ∈ s.resolved
      · simp only [advanceGo, hw, if_pos]
        apply ih
        · exact nodup_keys_set s.table k rest ht
        · exact lookupQ_set_self s.table k rest
        · intro k'
          by_cases hk : k' = k
          · subst hk
            obtain ⟨h1, h2⟩ := h k'
            have hful : queueD s k' = w :: rest := by rw [queueD, hq]; rfl
            rw [hful, pushFor, serveFor] at h1
            constructor
            · simp only [pushFor, serveFor, queueD, lookupQ_set_self, Option.getD_some,
                serveForL_append, serveForL_single_eq]
              simp [h1]
            · rw [startedQueuedFor, liveServeFor] at h2
              simp only [startedQueuedFor, liveServeFor, liveServeForL_append,
                liveServeForL_single_ghost, List.append_nil]
              exact h2
          · obtain ⟨h1, h2⟩ := h k'
            constructor
            · simpa only [pushFor, serveFor, queueD, lookupQ_set_ne s.table k k' rest hk,
                serveForL_append, serveForL_single_ne k k' w true hk,
                List.append_nil] using h1
            · simpa only [startedQueuedFor, liveServeFor, liveServeForL_append,
                liveServeForL_single_ne k k' w true hk, List.append_nil] using h2
      · simp only [advanceGo, hw, if_neg, not_false_iff, startWaiter]
        intro k'
        by_cases hk : k' = k
        · subst hk
          obtain ⟨h1, h2⟩ := h k'
          have hful : queueD s k' = w :: rest := by rw [queueD, hq]; rfl
          rw [hful, pushFor, serveFor] at h1
          constructor
          · simp only [pushFor, serveFor, queueD, lookupQ_set_self, Option.getD_some,
              serveForL_append, serveForL_single_eq]
            simp [h1]
          · rw [startedQueuedFor, liveServeFor] at h2
            simp only [startedQueuedFor, liveServeFor, liveServeForL_append,
              liveServeForL_single_live, startedQueuedForL_append,
              startedQueuedForL_single_queued]
            rw [h2]
        · obtain ⟨h1, h2⟩ := h k'
          constructor
          · simpa only [pushFor, serveFor, queueD, lookupQ_set_ne s.table k k' rest hk,
              serveForL_append, serveForL_single_ne k k' w false hk,
              List.append_nil] using h1
          · rw [startedQueuedFor, liveServeFor] at h2
            simp only [startedQueuedFor, liveServeFor, liveServeForL_append,
              liveServeForL_single_ne k k' w false hk, startedQueuedForL_append,
              startedQueuedForL_single_ne k k' w true hk, List.append_nil]
            exact h2

theorem logInv_erase {s : LockState} (ht : (s.table.map Prod.fst).Nodup) (h : LogInv s)
    (k : String) (hq : lookupQ s.table k = some []) :
    LogInv { s with table := eraseKeyTable s.table k } := by
  intro k'
  by_cases hk : k' = k
  · subst hk
    obtain ⟨h1, h2⟩ := h k'
    have hzero : queueD s k' = [] := by rw [queueD, hq]; rfl
    rw [hzero, List.append_nil] at h1
    exact ⟨by simpa only [pushFor, serveFor, queueD, lookupQ_erase_self s.table k' ht,
      Option.getD_none, List.append_nil] using h1, h2⟩
  · obtain ⟨h1, h2⟩ := h k'
    exact ⟨by simpa only [pushFor, serveFor, queueD,
      lookupQ_erase_ne s.table k k' hk] using h1, h2⟩

theorem logInv_doneTrue {s : LockState} (ht : (s.table.map Prod.fst).Nodup) (h : LogInv s)
    (aid : Nat) (k : String) (out : Outcome) : LogInv (doneTrue s aid k out) := by
  rw [doneTrue]
  have hfin : ∀ s₂ : LockState, (s₂.table.map Prod.fst).Nodup → LogInv s₂ →
      LogInv (match lookupQ s₂.table k with
        | none => s₂
        | some l => advanceGo k s₂ l) := by
    intro s₂ h2t h2
    cases hq : lookupQ s₂.table k with
    | none => simpa using h2
    | some l => simpa using advanceGo_logInv k l s₂ h2t hq h2
  apply hfin
  · split
    · split
      · exact ((eraseKeyTable_sublist s.table k).map Prod.fst).nodup ht
      · exact ((eraseKeyTable_sublist s.table k).map Prod.fst).nodup ht
    · split
      · exact ht
      · exact ht
  · split
    · rename_i hq
      split
      · exact logInv_erase ht h k hq
      · exact logInv_erase ht h k hq
    · split
      · exact h
      · exact h

theorem logInv_step {cfg : Config} {s s' : LockState} (ht : (s.table.map Prod.fst).Nodup)
    (h : LogInv s) (hs : Step cfg s s') : LogInv s' := by
  cases hs with
  | acquire s' aid k optT hfresh heq =>
      simp only [acquireFn, Bool.not_true, Bool.false_eq_true, if_neg, not_false_iff] at heq
      cases hq : lookupQ s.table k with
      | none =>
          rw [hq] at heq
          simp only [Except.ok.injEq] at heq
          subst heq
          intro k'
          obtain ⟨h1, h2⟩ := h k'
          by_cases hk : k' = k
          · subst hk
            have hzero : queueD s k' = [] := by rw [queueD, hq]; rfl
            rw [hzero, List.append_nil] at h1
            constructor
            · simpa only [startWaiter, pushFor, serveFor, queueD, lookupQ_set_self,
                Option.getD_some, List.append_nil] using h1
            · rw [startedQueuedFor, liveServeFor] at h2
              simpa only [startWaiter, startedQueuedFor, liveServeFor,
                startedQueuedForL_append, startedQueuedForL_single_immediate,
                List.append_nil] using h2
          · constructor
            · simpa only [startWaiter, pushFor, serveFor, queueD,
                lookupQ_set_ne s.table k k' [] hk] using h1
            · rw [startedQueuedFor, liveServeFor] at h2
              simpa only [startWaiter, startedQueuedFor, liveServeFor,
                startedQueuedForL_append, startedQueuedForL_single_ne k k' aid false hk,
                List.append_nil] using h2
      | some q =>
          rw [hq] at heq
          by_cases hfull : cfg.maxPending ≤ q.length
          · simp only [hfull, if_pos, Except.ok.injEq] at heq
            subst heq
            intro k'
            obtain ⟨h1, h2⟩ := h k'
            by_cases hr : aid ∈ s.resolved <;>
              exact ⟨by simpa only [doneFalse, hr, if_pos, if_neg, not_false_iff, pushFor,
                serveFor, queueD] using h1, by simpa only [doneFalse, hr, if_pos, if_neg,
                not_false_iff, startedQueuedFor, liveServeFor] using h2⟩
          · simp only [hfull, if_neg, not_false_iff, Except.ok.injEq] at heq
            subst heq
            have hbody : LogInv
                { s with seen := aid :: s.seen, keyOf := (aid, k) :: s.keyOf,
                         table := setQTable s.table k (q ++ [aid]),
                         pushLog := s.pushLog ++ [(k, aid)] } := by
              intro k'
              obtain ⟨h1, h2⟩ := h k'
              by_cases hk : k' = k
              · subst hk
                have hful : queueD s k' = q := by rw [queueD, hq]; rfl
                rw [hful, pushFor, serveFor] at h1
                constructor
                · simp only [pushFor, serveFor, queueD, lookupQ_set_self, Option.getD_some,
                    pushForL_append, pushForL_single_eq]
                  simp [h1]
                · simpa only [startedQueuedFor, liveServeFor] using h2
              · constructor
                · simpa only [pushFor, serveFor, queueD,
                    lookupQ_set_ne s.table k k' (q ++ [aid]) hk, pushForL_append,
                    pushForL_single_ne k k' aid hk, List.append_nil] using h1
                · simpa only [startedQueuedFor, liveServeFor] using h2
            split
            · intro k'
              obtain ⟨h1, h2⟩ := hbody k'
              exact ⟨h1, h2⟩
            · exact hbody
  | fire aid hmem =>
      intro k'
      obtain ⟨h1, h2⟩ := h k'
      by_cases hr : aid ∈ s.resolved <;>
        exact ⟨by simpa only [fireTimer, doneFalse, hr, if_pos, if_neg, not_false_iff,
          pushFor, serveFor, queueD] using h1, by simpa only [fireTimer, doneFalse, hr,
          if_pos, if_neg, not_false_iff, startedQueuedFor, liveServeFor] using h2⟩
  | complete aid e hmem =>
      show LogInv (doneTrue { s with running := s.running.erase aid } aid (keyAt s aid)
        (Outcome.fromTask e))
      exact @logInv_doneTrue { s with running := s.running.erase aid } ht
        (fun k' => h k') aid (keyAt s aid) (Outcome.fromTask e)

theorem reachable_logInv {cfg : Config} {s : LockState} (h : Reachable cfg s) : LogInv s := by
  induction h with
  | init =>
      intro k
      simp [initState, pushFor, serveFor, queueD, startedQueuedFor, liveServeFor,
        pushForL, serveForL, liveServeForL, startedQueuedForL, lookupQ]
  | step hr hs ih => exact logInv_step (reachable_tableNodup hr) ih hs

/-! Central safety invariant: mutual exclusion, table presence, and the
discipline tying timers, queues and the running set together. -/

/-- Safety invariant of reachable states. -/
structure Inv (s : LockState) : Prop where
  /-- At most one running task body per key. -/
  mutex : ∀ a ∈ s.running, ∀ b ∈ s.running, keyAt s a = keyAt s b → a = b
  /-- A running holder's key has a lock-table entry. -/
  runPresent : ∀ a ∈ s.running, (lookupQ s.table (keyAt s a)).isSome = true
  /-- A key present with an empty queue has a running holder. -/
  presentHeld : ∀ k, lookupQ s.table k = some [] → ∃ a, a ∈ s.running ∧ keyAt s a = k
  runningNodup : s.running.Nodup
  runSeen : ∀ a ∈ s.running, a ∈ s.seen
  queuedSeen : ∀ k, ∀ a ∈ queueD s k, a ∈ s.seen
  /-- A queued waiter sits in the queue of its own key. -/
  queuedKey : ∀ k, ∀ a ∈ queueD s k, keyAt s a = k
  queuedNotRunning : ∀ k, ∀ a ∈ queueD s k, a ∉ s.running
  queueNodup : ∀ k, (queueD s k).Nodup
  timerSeen : ∀ a ∈ s.timer, a ∈ s.seen
  timerNodup : s.timer.Nodup
  /-- An armed timer belongs to an undelivered acquisition. -/
  timerNotResolved : ∀ a ∈ s.timer, a ∉ s.resolved
  /-- An armed timer never belongs to a running task. -/
  timerNotRunning : ∀ a ∈ s.timer, a ∉ s.running
  /-- An armed timer never belongs to a task that has ever started. -/
  timerNotStarted : ∀ a ∈ s.timer, a ∉ s.startedLog.map (fun e => e.1)
  /-- An armed timer's acquisition is still queued at its key. -/
  timerQueued : ∀ a ∈ s.timer, a ∈ queueD s (keyAt s a)
  resolvedSeen : ∀ a ∈ s.resolved, a ∈ s.seen
  startedSeen : ∀ e ∈ s.startedLog, e.1 ∈ s.seen

theorem advanceGo_inv (k : String) (l : List Nat) (s : LockState)
    (ht : (s.table.map Prod.fst).Nodup)
    (hmutex : ∀ a ∈ s.running, ∀ b ∈ s.running, keyAt s a = keyAt s b → a = b)
    (hnoHolder : ∀ a ∈ s.running, keyAt s a ≠ k)
    (hrunPresent : ∀ a ∈ s.running, (lookupQ s.table (keyAt s a)).isSome = true)
    (hpresentAway : ∀ k', k' ≠ k → lookupQ s.table k' = some [] →
        ∃ a, a ∈ s.running ∧ keyAt s a = k')
    (hrunNodup : s.running.Nodup)
    (hrunSeen : ∀ a ∈ s.running, a ∈ s.seen)
    (hqSeen : ∀ k', ∀ a ∈ queueD s k', a ∈ s.seen)
    (hqKey : ∀ k', ∀ a ∈ queueD s k', keyAt s a = k')
    (hqNotRun : ∀ k', ∀ a ∈ queueD s k', a ∉ s.running)
    (hqNodup : ∀ k', (queueD s k').Nodup)
    (htSeen : ∀ a ∈ s.timer, a ∈ s.seen)
    (htNodup : s.timer.Nodup)
    (htNotRes : ∀ a ∈ s.timer, a ∉ s.resolved)
    (htNotRun : ∀ a ∈ s.timer, a ∉ s.running)
    (htNotStart : ∀ a ∈ s.timer, a ∉ s.startedLog.map (fun e => e.1))
    (htQueued : ∀ a ∈ s.timer, a ∈ queueD s (keyAt s a))
    (hresSeen : ∀ a ∈ s.resolved, a ∈ s.seen)
    (hstSeen : ∀ e ∈ s.startedLog, e.1 ∈ s.seen)
    (hq : lookupQ s.table k = some l) :
    Inv (advanceGo k s l) := by
  induction l generalizing s with
  | nil =>
      simp only [advanceGo]
      refine ⟨hmutex, ?_, ?_, hrunNodup, hrunSeen, ?_, ?_, ?_, ?_, htSeen, htNodup,
        htNotRes, htNotRun, htNotStart, ?_, hresSeen, hstSeen⟩
      · intro a ha
        show (lookupQ (eraseKeyTable s.table k) (keyAt s a)).isSome = true
        rw [lookupQ_erase_ne s.table k (keyAt s a) (hnoHolder a ha)]
        exact hrunPresent a ha
      · intro k' hk'
        replace hk' : lookupQ (eraseKeyTable s.table k) k' = some [] := hk'
        by_cases hk : k' = k
        · subst hk
          rw [lookupQ_erase_self s.table k' ht] at hk'
          exact absurd hk' (by simp)
        · rw [lookupQ_erase_ne s.table k k' hk] at hk'
          exact hpresentAway k' hk hk'
      · intro k' a ha
        replace ha : a ∈ (lookupQ (eraseKeyTable s.table k) k').getD [] := ha
        by_cases hk : k' = k
        · rw [hk, lookupQ_erase_self s.table k ht] at ha
          simp at ha
        · rw [lookupQ_erase_ne s.table k k' hk] at ha
          exact hqSeen k' a ha
      · intro k' a ha
        replace ha : a ∈ (lookupQ (eraseKeyTable s.table k) k').getD [] := ha
        by_cases hk : k' = k
        · rw [hk, lookupQ_erase_self s.table k ht] at ha
          simp at ha
        · rw [lookupQ_erase_ne s.table k k' hk] at ha
          exact hqKey k' a ha
      · intro k' a ha
        replace ha : a ∈ (lookupQ (eraseKeyTable s.table k) k').getD [] := ha
        by_cases hk : k' = k
        · rw [hk, lookupQ_erase_self s.table k ht] at ha
          simp at ha
        · rw [lookupQ_erase_ne s.table k k' hk] at ha
          exact hqNotRun k' a ha
      · intro k'
        show ((lookupQ (eraseKeyTable s.table k) k').getD []).Nodup
        by_cases hk : k' = k
        · rw [hk, lookupQ_erase_self s.table k ht]
          simp
        · rw [lookupQ_erase_ne s.table k k' hk]
          exact hqNodup k'
      · intro a ha
        have h0 := htQueued a ha
        show a ∈ (lookupQ (eraseKeyTable s.table k) (keyAt s a)).getD []
        by_cases hk : keyAt s a = k
        · rw [hk, queueD, hq] at h0
          exact absurd h0 (List.not_mem_nil a)
        · rw [lookupQ_erase_ne s.table k (keyAt s a) hk]
          exact h0
  | cons w rest ih =>
      have hwq : w ∈ queueD s k := by
        rw [queueD, hq]
        exact List.mem_cons_self w rest
      have hkeyw : keyAt s w = k := hqKey k w hwq
      have hrestq : ∀ a ∈ rest, a ∈ queueD s k := by
        intro a ha
        rw [queueD, hq]
        exact List.mem_cons_of_mem w ha
      have hwrest : (w :: rest).Nodup := by
        have h0 := hqNodup k
        rw [queueD, hq] at h0
        exact h0
      have hwnotrest : w ∉ rest := (List.nodup_cons.mp hwrest).1
      have hrestnd : rest.Nodup := (List.nodup_cons.mp hwrest).2
      by_cases hw : w ∈ s.resolved
      · simp only [advanceGo, hw, if_pos]
        apply ih
        · exact nodup_keys_set s.table k rest ht
        · exact hmutex
        · exact hnoHolder
        · intro a ha
          show (lookupQ (setQTable s.table k rest) (keyAt s a)).isSome = true
          rw [lookupQ_set_ne s.table k (keyAt s a) rest (hnoHolder a ha)]
          exact hrunPresent a ha
        · intro k' hk hk'
          replace hk' : lookupQ (setQTable s.table k rest) k' = some [] := hk'
          rw [lookupQ_set_ne s.table k k' rest hk] at hk'
          exact hpresentAway k' hk hk'
        · exact hrunNodup
        · exact hrunSeen
        · intro k' a ha
          replace ha : a ∈ (lookupQ (setQTable s.table k rest) k').getD [] := ha
          by_cases hk : k' = k
          · rw [hk, lookupQ_set_self] at ha
            exact hqSeen k a (hrestq a ha)
          · rw [lookupQ_set_ne s.table k k' rest hk] at ha
            exact hqSeen k' a ha
        · intro k' a ha
          replace ha : a ∈ (lookupQ (setQTable s.table k rest) k').getD [] := ha
          by_cases hk : k' = k
          · rw [hk, lookupQ_set_self] at ha
            rw [hk]
            exact hqKey k a (hrestq a ha)
          · rw [lookupQ_set_ne s.table k k' rest hk] at ha
            exact hqKey k' a ha
        · intro k' a ha
          replace ha : a ∈ (lookupQ (setQTable s.table k rest) k').getD [] := ha
          by_cases hk : k' = k
          · rw [hk, lookupQ_set_self] at ha
            exact hqNotRun k a (hrestq a ha)
          · rw [lookupQ_set_ne s.table k k' rest hk] at ha
            exact hqNotRun k' a ha
        · intro k'
          show ((lookupQ (setQTable s.table k rest) k').getD []).Nodup
          by_cases hk : k' = k
          · rw [hk, lookupQ_set_self]
            exact hrestnd
          · rw [lookupQ_set_ne s.table k k' rest hk]
            exact hqNodup k'
        · exact htSeen
        · exact htNodup
        · exact htNotRes
        · exact htNotRun
        · exact htNotStart
        · intro a ha
          have h0 := htQueued a ha
          show a ∈ (lookupQ (setQTable s.table k rest) (keyAt s a)).getD []
          by_cases hk : keyAt s a = k
          · rw [hk, lookupQ_set_self]
            rw [hk, queueD, hq] at h0
            rcases List.mem_cons.mp h0 with h0 | h0
            · subst h0
              exact absurd hw (htNotRes a ha)
            · exact h0
          · rw [lookupQ_set_ne s.table k (keyAt s a) rest hk]
            exact h0
        · exact hresSeen
        · exact hstSeen
        · exact lookupQ_set_self s.table k rest
      · have hwseen : w ∈ s.seen := hqSeen k w hwq
        have hwnotrun : w ∉ s.running := hqNotRun k w hwq
        simp only [advanceGo, hw, if_neg, not_false_iff, startWaiter]
        refine ⟨?_, ?_, ?_, ?_, ?_, ?_, ?_, ?_, ?_, ?_, ?_, ?_, ?_, ?_, ?_, hresSeen, ?_⟩
        · intro a ha b hb hab
          replace ha : a ∈ w :: s.running := ha
          replace hb : b ∈ w :: s.running := hb
          replace hab : keyAt s a = keyAt s b := hab
          rcases List.mem_cons.mp ha with haw | har
          · rcases List.mem_cons.mp hb with hbw | hbr
            · rw [haw, hbw]
            · rw [haw] at hab
              exact absurd (hab.symm.trans hkeyw) (hnoHolder b hbr)
          · rcases List.mem_cons.mp hb with hbw | hbr
            · rw [hbw] at hab
              exact absurd (hab.trans hkeyw) (hnoHolder a har)
            · exact hmutex a har b hbr hab
        · intro a ha
          replace ha : a ∈ w :: s.running := ha
          show (lookupQ (setQTable s.table k rest) (keyAt s a)).isSome = true
          rcases List.mem_cons.mp ha with ha | ha
          · subst ha
            rw [hkeyw, lookupQ_set_self]
            rfl
          · rw [lookupQ_set_ne s.table k (keyAt s a) rest (hnoHolder a ha)]
            exact hrunPresent a ha
        · intro k' hk'
          replace hk' : lookupQ (setQTable s.table k rest) k' = some [] := hk'
          by_cases hk : k' = k
          · subst hk
            exact ⟨w, List.mem_cons_self w s.running, hkeyw⟩
          · rw [lookupQ_set_ne s.table k k' rest hk] at hk'
            obtain ⟨a, ha, hka⟩ := hpresentAway k' hk hk'
            exact ⟨a, List.mem_cons_of_mem w ha, hka⟩
        · exact List.nodup_cons.mpr ⟨hwnotrun, hrunNodup⟩
        · intro a ha
          replace ha : a ∈ w :: s.running := ha
          rcases List.mem_cons.mp ha with ha | ha
          · subst ha
            exact hwseen
          · exact hrunSeen a ha
        · intro k' a ha
          replace ha : a ∈ (lookupQ (setQTable s.table k rest) k').getD [] := ha
          by_cases hk : k' = k
          · rw [hk, lookupQ_set_self] at ha
            exact hqSeen k a (hrestq a ha)
          · rw [lookupQ_set_ne s.table k k' rest hk] at ha
            exact hqSeen k' a ha
        · intro k' a ha
          replace ha : a ∈ (lookupQ (setQTable s.table k rest) k').getD [] := ha
          by_cases hk : k' = k
          · rw [hk, lookupQ_set_self] at ha
            rw [hk]
            exact hqKey k a (hrestq a ha)
          · rw [lookupQ_set_ne s.table k k' rest hk] at ha
            exact hqKey k' a ha
        · intro k' a ha
          replace ha : a ∈ (lookupQ (setQTable s.table k rest) k').getD [] := ha
          show a ∉ w :: s.running
          intro hmem
          by_cases hk : k' = k
          · rw [hk, lookupQ_set_self] at ha
            rcases List.mem_cons.mp hmem with hW | hR
            · subst hW
              exact hwnotrest ha
            · exact hqNotRun k a (hrestq a ha) hR
          · rw [lookupQ_set_ne s.table k k' rest hk] at ha
            rcases List.mem_cons.mp hmem with hW | hR
            · subst hW
              exact hk (((hqKey k' _ ha).symm).trans hkeyw)
            · exact hqNotRun k' a ha hR
        · intro k'
          show ((lookupQ (setQTable s.table k rest) k').getD []).Nodup
          by_cases hk : k' = k
          · rw [hk, lookupQ_set_self]
            exact hrestnd
          · rw [lookupQ_set_ne s.table k k' rest hk]
            exact hqNodup k'
        · intro a ha
          replace ha : a ∈ s.timer.erase w := ha
          exact htSeen a (List.mem_of_mem_erase ha)
        · exact htNodup.erase w
        · intro a ha
          replace ha : a ∈ s.timer.erase w := ha
          exact htNotRes a (List.mem_of_mem_erase ha)
        · intro a ha hmem
          replace ha : a ∈ s.timer.erase w := ha
          replace hmem : a ∈ w :: s.running := hmem
          have haw := htNodup.mem_erase_iff.mp ha
          rcases List.mem_cons.mp hmem with h' | h'
          · exact haw.1 h'
          · exact htNotRun a haw.2 h'
        · intro a ha hmem
          replace ha : a ∈ s.timer.erase w := ha
          replace hmem : a ∈ (s.startedLog ++ [(w, k, true)]).map (fun e => e.1) := hmem
          have haw := htNodup.mem_erase_iff.mp ha
          rw [List.map_append] at hmem
          rcases List.mem_append.mp hmem with h' | h'
          · exact htNotStart a haw.2 h'
          · simp only [List.map_cons, List.map_nil, List.mem_singleton] at h'
            exact haw.1 h'
        · intro a ha
          replace ha : a ∈ s.timer.erase w := ha
          have haw := htNodup.mem_erase_iff.mp ha
          have h0 := htQueued a haw.2
          show a ∈ (lookupQ (setQTable s.table k rest) (keyAt s a)).getD []
          by_cases hk : keyAt s a = k
          · rw [hk, lookupQ_set_self]
            rw [hk, queueD, hq] at h0
            rcases List.mem_cons.mp h0 with h0 | h0
            · exact absurd h0 haw.1
            · exact h0
          · rw [lookupQ_set_ne s.table k (keyAt s a) rest hk]
            exact h0
        · intro e he
          replace he : e ∈ s.startedLog ++ [(w, k, true)] := he
          rcases List.mem_append.mp he with he | he
          · exact hstSeen e he
          · rw [List.mem_singleton] at he
            subst he
            exact hwseen

theorem keyAt_cons_of (r s : LockState) (aid : Nat) (k : String)
    (hr : r.keyOf = (aid, k) :: s.keyOf) :
    (∀ b, b ≠ aid → keyAt r b = keyAt s b) ∧ keyAt r aid = k := by
  constructor
  · intro b hb
    rw [keyAt, hr, lookupN_cons_ne s.keyOf aid b k (fun hh => hb hh.symm)]
    rfl
  · rw [keyAt, hr, lookupN_cons_self]
    rfl

theorem inv_fire {s : LockState} (inv : Inv s) (aid : Nat) (hmem : aid ∈ s.timer) :
    Inv (fireTimer s aid) := by
  have hnr : aid ∉ s.resolved := inv.timerNotResolved aid hmem
  suffices main : Inv { s with timer := s.timer.erase aid
                               delivered := s.delivered ++ [(aid, Outcome.timedOut)]
                               resolved := aid :: s.resolved } by
    show Inv (doneFalse { s with timer := s.timer.erase aid } aid Outcome.timedOut)
    rw [doneFalse,
      if_neg (show aid ∉ ({ s with timer := s.timer.erase aid } : LockState).resolved from hnr)]
    exact main
  refine ⟨inv.mutex, inv.runPresent, inv.presentHeld, inv.runningNodup, inv.runSeen,
    inv.queuedSeen, inv.queuedKey, inv.queuedNotRunning, inv.queueNodup, ?_, ?_, ?_, ?_, ?_, ?_,
    ?_, inv.startedSeen⟩
  · intro a ha
    replace ha : a ∈ s.timer.erase aid := ha
    exact inv.timerSeen a (List.mem_of_mem_erase ha)
  · exact inv.timerNodup.erase aid
  · intro a ha hmem'
    replace ha : a ∈ s.timer.erase aid := ha
    replace hmem' : a ∈ aid :: s.resolved := hmem'
    have haw := inv.timerNodup.mem_erase_iff.mp ha
    rcases List.mem_cons.mp hmem' with h' | h'
    · exact haw.1 h'
    · exact inv.timerNotResolved a haw.2 h'
  · intro a ha
    replace ha : a ∈ s.timer.erase aid := ha
    exact inv.timerNotRunning a (List.mem_of_mem_erase ha)
  · intro a ha
    replace ha : a ∈ s.timer.erase aid := ha
    exact inv.timerNotStarted a (List.mem_of_mem_erase ha)
  · intro a ha
    replace ha : a ∈ s.timer.erase aid := ha
    exact inv.timerQueued a (List.mem_of_mem_erase ha)
  · intro a ha
    replace ha : a ∈ aid :: s.resolved := ha
    rcases List.mem_cons.mp ha with h' | h'
    · rw [h']
      exact inv.timerSeen aid hmem
    · exact inv.resolvedSeen a h'

theorem inv_acquire {cfg : Config} {s s' : LockState} (inv : Inv s) (aid : Nat) (k : String)
    (optT : Option Nat) (hfresh : aid ∉ s.seen)
    (heq : acquireFn cfg s aid k true optT = Except.ok s') : Inv s' := by
  have hANotRun : aid ∉ s.running := fun h => hfresh (inv.runSeen aid h)
  have hANotTimer : aid ∉ s.timer := fun h => hfresh (inv.timerSeen aid h)
  have hANotRes : aid ∉ s.resolved := fun h => hfresh (inv.resolvedSeen aid h)
  have hANotQ : ∀ k', aid ∉ queueD s k' := fun k' h => hfresh (inv.queuedSeen k' aid h)
  have hANotStart : aid ∉ s.startedLog.map (fun e => e.1) := by
    intro hmem
    obtain ⟨e, he, hee⟩ := List.mem_map.mp hmem
    exact hfresh (hee ▸ inv.startedSeen e he)
  simp only [acquireFn, Bool.not_true, Bool.false_eq_true, if_neg, not_false_iff] at heq
  cases hq : lookupQ s.table k with
  | none =>
      rw [hq] at heq
      simp only [Except.ok.injEq] at heq
      subst heq
      suffices main : Inv { s with seen := aid :: s.seen
                                   keyOf := (aid, k) :: s.keyOf
                                   table := setQTable s.table k []
                                   timer := s.timer.erase aid
                                   running := aid :: s.running
                                   startedLog := s.startedLog ++ [(aid, k, false)] } by
        exact main
      set r : LockState := { s with seen := aid :: s.seen
                                    keyOf := (aid, k) :: s.keyOf
                                    table := setQTable s.table k []
                                    timer := s.timer.erase aid
                                    running := aid :: s.running
                                    startedLog := s.startedLog ++ [(aid, k, false)] } with hrdef
      obtain ⟨hkA, hkAid⟩ := keyAt_cons_of r s aid k rfl
      refine ⟨?_, ?_, ?_, ?_, ?_, ?_, ?_, ?_, ?_, ?_, ?_, ?_, ?_, ?_, ?_, ?_, ?_⟩
      · intro a ha b hb hab
        replace ha : a ∈ aid :: s.running := ha
        replace hb : b ∈ aid :: s.running := hb
        rcases List.mem_cons.mp ha with haw | har
        · rcases List.mem_cons.mp hb with hbw | hbr
          · rw [haw, hbw]
          · rw [haw] at hab
            have hbne : b ≠ aid := fun hh => hfresh (hh ▸ inv.runSeen b hbr)
            have hkb : keyAt s b = k := (hkA b hbne).symm.trans (hab.symm.trans hkAid)
            have hp := inv.runPresent b hbr
            rw [hkb, hq] at hp
            simp at hp
        · rcases List.mem_cons.mp hb with hbw | hbr
          · rw [hbw] at hab
            have hane : a ≠ aid := fun hh => hfresh (hh ▸ inv.runSeen a har)
            have hka : keyAt s a = k := (hkA a hane).symm.trans (hab.trans hkAid)
            have hp := inv.runPresent a har
            rw [hka, hq] at hp
            simp at hp
          · have hane : a ≠ aid := fun hh => hfresh (hh ▸ inv.runSeen a har)
            have hbne : b ≠ aid := fun hh => hfresh (hh ▸ inv.runSeen b hbr)
            exact inv.mutex a har b hbr ((hkA a hane).symm.trans (hab.trans (hkA b hbne)))
      · intro a ha
        replace ha : a ∈ aid :: s.running := ha
        show (lookupQ (setQTable s.table k []) (keyAt r a)).isSome = true
        rcases List.mem_cons.mp ha with haw | har
        · rw [haw, hkAid, lookupQ_set_self]
          rfl
        · have hane : a ≠ aid := fun hh => hfresh (hh ▸ inv.runSeen a har)
          rw [hkA a hane]
          by_cases hkb : keyAt s a = k
          · rw [hkb, lookupQ_set_self]
            rfl
          · rw [lookupQ_set_ne s.table k (keyAt s a) [] hkb]
            exact inv.runPresent a har
      · intro k' hk'
        replace hk' : lookupQ (setQTable s.table k []) k' = some [] := hk'
        by_cases hkk : k' = k
        · subst hkk
          exact ⟨aid, List.mem_cons_self aid s.running, hkAid⟩
        · rw [lookupQ_set_ne s.table k k' [] hkk] at hk'
          obtain ⟨a, ha, hka⟩ := inv.presentHeld k' hk'
          have hane : a ≠ aid := fun hh => hfresh (hh ▸ inv.runSeen a ha)
          exact ⟨a, List.mem_cons_of_mem aid ha, (hkA a hane).trans hka⟩
      · exact List.nodup_cons.mpr ⟨hANotRun, inv.runningNodup⟩
      · intro a ha
        replace ha : a ∈ aid :: s.running := ha
        show a ∈ aid :: s.seen
        rcases List.mem_cons.mp ha with haw | har
        · rw [haw]
          exact List.mem_cons_self aid s.seen
        · exact List.mem_cons_of_mem aid (inv.runSeen a har)
      · intro k' a ha
        replace ha : a ∈ (lookupQ (setQTable s.table k []) k').getD [] := ha
        show a ∈ aid :: s.seen
        by_cases hkk : k' = k
        · rw [hkk, lookupQ_set_self] at ha
          simp at ha
        · rw [lookupQ_set_ne s.table k k' [] hkk] at ha
          exact List.mem_cons_of_mem aid (inv.queuedSeen k' a ha)
      · intro k' a ha
        replace ha : a ∈ (lookupQ (setQTable s.table k []) k').getD [] := ha
        by_cases hkk : k' = k
        · rw [hkk, lookupQ_set_self] at ha
          simp at ha
        · rw [lookupQ_set_ne s.table k k' [] hkk] at ha
          have hane : a ≠ aid := fun hh => hfresh (hh ▸ inv.queuedSeen k' a ha)
          exact (hkA a hane).trans (inv.queuedKey k' a ha)
      · intro k' a ha hmem
        replace ha : a ∈ (lookupQ (setQTable s.table k []) k').getD [] := ha
        replace hmem : a ∈ aid :: s.running := hmem
        by_cases hkk : k' = k
        · rw [hkk, lookupQ_set_self] at ha
          simp at ha
        · rw [lookupQ_set_ne s.table k k' [] hkk] at ha
          rcases List.mem_cons.mp hmem with h' | h'
          · exact hfresh (h' ▸ inv.queuedSeen k' a ha)
          · exact inv.queuedNotRunning k' a ha h'
      · intro k'
        show ((lookupQ (setQTable s.table k []) k').getD []).Nodup
        by_cases hkk : k' = k
        · rw [hkk, lookupQ_set_self]
          simp
        · rw [lookupQ_set_ne s.table k k' [] hkk]
          exact inv.queueNodup k'
      · intro a ha
        replace ha : a ∈ s.timer.erase aid := ha
        exact List.mem_cons_of_mem aid (inv.timerSeen a (List.mem_of_mem_erase ha))
      · exact inv.timerNodup.erase aid
      · intro a ha
        replace ha : a ∈ s.timer.erase aid := ha
        exact inv.timerNotResolved a (List.mem_of_mem_erase ha)
      · intro a ha hmem
        replace ha : a ∈ s.timer.erase aid := ha
        replace hmem : a ∈ aid :: s.running := hmem
        have ha' := List.mem_of_mem_erase ha
        rcases List.mem_cons.mp hmem with h' | h'
        · exact hANotTimer (h' ▸ ha')
        · exact inv.timerNotRunning a ha' h'
      · intro a ha hmem
        replace ha : a ∈ s.timer.erase aid := ha
        replace hmem : a ∈ (s.startedLog ++ [(aid, k, false)]).map (fun e => e.1) := hmem
        have ha' := List.mem_of_mem_erase ha
        rw [List.map_append] at hmem
        rcases List.mem_append.mp hmem with h' | h'
        · exact inv.timerNotStarted a ha' h'
        · simp only [List.map_cons, List.map_nil, List.mem_singleton] at h'
          exact hANotTimer (h' ▸ ha')
      · intro a ha
        replace ha : a ∈ s.timer.erase aid := ha
        have ha' := List.mem_of_mem_erase ha
        have hane : a ≠ aid := fun hh => hfresh (hh ▸ inv.timerSeen a ha')
        have h0 := inv.timerQueued a ha'
        show a ∈ (lookupQ (setQTable s.table k []) (keyAt r a)).getD []
        rw [hkA a hane]
        by_cases hkk : keyAt s a = k
        · rw [hkk] at h0
          have hzero : queueD s k = [] := by rw [queueD, hq]; rfl
          rw [hzero] at h0
          exact absurd h0 (List.not_mem_nil a)
        · rw [lookupQ_set_ne s.table k (keyAt s a) [] hkk]
          exact h0
      · intro a ha
        replace ha : a ∈ s.resolved := ha
        exact List.mem_cons_of_mem aid (inv.resolvedSeen a ha)
      · intro e he
        replace he : e ∈ s.startedLog ++ [(aid, k, false)] := he
        show e.1 ∈ aid :: s.seen
        rcases List.mem_append.mp he with h' | h'
        · exact List.mem_cons_of_mem aid (inv.startedSeen e h')
        · rw [List.mem_singleton] at h'
          rw [h']
          exact List.mem_cons_self aid s.seen
  | some q =>
      rw [hq] at heq
      have hqd : queueD s k = q := by rw [queueD, hq]; rfl
      by_cases hfull : cfg.maxPending ≤ q.length
      · simp only [hfull, if_pos, Except.ok.injEq] at heq
        subst heq
        show Inv (doneFalse { s with seen := aid :: s.seen, keyOf := (aid, k) :: s.keyOf }
          aid Outcome.tooManyPending)
        rw [doneFalse, if_neg (show
          aid ∉ ({ s with seen := aid :: s.seen, keyOf := (aid, k) :: s.keyOf } : LockState).resolved
          from hANotRes)]
        suffices main : Inv { s with seen := aid :: s.seen
                                     keyOf := (aid, k) :: s.keyOf
                                     delivered := s.delivered ++ [(aid, Outcome.tooManyPending)]
                                     resolved := aid :: s.resolved } by
          exact main
        set r : LockState := { s with seen := aid :: s.seen
                                      keyOf := (aid, k) :: s.keyOf
                                      delivered := s.delivered ++ [(aid, Outcome.tooManyPending)]
                                      resolved := aid :: s.resolved } with hrdef
        obtain ⟨hkA, hkAid⟩ := keyAt_cons_of r s aid k rfl
        refine ⟨?_, ?_, ?_, inv.runningNodup, ?_, ?_, ?_, ?_, inv.queueNodup, ?_, inv.timerNodup,
          ?_, inv.timerNotRunning, inv.timerNotStarted, ?_, ?_, ?_⟩
        · intro a ha b hb hab
          replace ha : a ∈ s.running := ha
          replace hb : b ∈ s.running := hb
          have hane : a ≠ aid := fun hh => hfresh (hh ▸ inv.runSeen a ha)
          have hbne : b ≠ aid := fun hh => hfresh (hh ▸ inv.runSeen b hb)
          exact inv.mutex a ha b hb ((hkA a hane).symm.trans (hab.trans (hkA b hbne)))
        · intro a ha
          replace ha : a ∈ s.running := ha
          have hane : a ≠ aid := fun hh => hfresh (hh ▸ inv.runSeen a ha)
          show (lookupQ s.table (keyAt r a)).isSome = true
          rw [hkA a hane]
          exact inv.runPresent a ha
        · intro k' hk'
          replace hk' : lookupQ s.table k' = some [] := hk'
          obtain ⟨a, ha, hka⟩ := inv.presentHeld k' hk'
          have hane : a ≠ aid := fun hh => hfresh (hh ▸ inv.runSeen a ha)
          exact ⟨a, ha, (hkA a hane).trans hka⟩
        · intro a ha
          replace ha : a ∈ s.running := ha
          exact List.mem_cons_of_mem aid (inv.runSeen a ha)
        · intro k' a ha
          replace ha : a ∈ queueD s k' := ha
          exact List.mem_cons_of_mem aid (inv.queuedSeen k' a ha)
        · intro k' a ha
          replace ha : a ∈ queueD s k' := ha
          have hane : a ≠ aid := fun hh => hfresh (hh ▸ inv.queuedSeen k' a ha)
          exact (hkA a hane).trans (inv.queuedKey k' a ha)
        · intro k' a ha
          replace ha : a ∈ queueD s k' := ha
          exact inv.queuedNotRunning k' a ha
        · intro a ha
          replace ha : a ∈ s.timer := ha
          exact List.mem_cons_of_mem aid (inv.timerSeen a ha)
        · intro a ha hmem
          replace ha : a ∈ s.timer := ha
          replace hmem : a ∈ aid :: s.resolved := hmem
          rcases List.mem_cons.mp hmem with h' | h'
          · exact hANotTimer (h' ▸ ha)
          · exact inv.timerNotResolved a ha h'
        · intro a ha
          replace ha : a ∈ s.timer := ha
          have hane : a ≠ aid := fun hh => hfresh (hh ▸ inv.timerSeen a ha)
          show a ∈ (lookupQ s.table (keyAt r a)).getD []
          rw [hkA a hane]
          exact inv.timerQueued a ha
        · intro a ha
          replace ha : a ∈ aid :: s.resolved := ha
          rcases List.mem_cons.mp ha with h' | h'
          · rw [h']
            exact List.mem_cons_self aid s.seen
          · exact List.mem_cons_of_mem aid (inv.resolvedSeen a h')
        · intro e he
          replace he : e ∈ s.startedLog := he
          exact List.mem_cons_of_mem aid (inv.startedSeen e he)
      · simp only [hfull, if_neg, not_false_iff, Except.ok.injEq] at heq
        subst heq
        have hcore : ∀ T : List Nat,
            (∀ a ∈ T, a = aid ∨ a ∈ s.timer) → T.Nodup →
            (aid ∈ T → aid ∈ queueD s k → True) →
            Inv { s with seen := aid :: s.seen
                         keyOf := (aid, k) :: s.keyOf
                         table := setQTable s.table k (q ++ [aid])
                         pushLog := s.pushLog ++ [(k, aid)]
                         timer := T } := by
          intro T hTmem hTnd _
          set r : LockState := { s with seen := aid :: s.seen
                                        keyOf := (aid, k) :: s.keyOf
                                        table := setQTable s.table k (q ++ [aid])
                                        pushLog := s.pushLog ++ [(k, aid)]
                                        timer := T } with hrdef
          obtain ⟨hkA, hkAid⟩ := keyAt_cons_of r s aid k rfl
          refine ⟨?_, ?_, ?_, inv.runningNodup, ?_, ?_, ?_, ?_, ?_, ?_, hTnd, ?_, ?_, ?_, ?_,
            ?_, ?_⟩
          · intro a ha b hb hab
            replace ha : a ∈ s.running := ha
            replace hb : b ∈ s.running := hb
            have hane : a ≠ aid := fun hh => hfresh (hh ▸ inv.runSeen a ha)
            have hbne : b ≠ aid := fun hh => hfresh (hh ▸ inv.runSeen b hb)
            exact inv.mutex a ha b hb ((hkA a hane).symm.trans (hab.trans (hkA b hbne)))
          · intro a ha
            replace ha : a ∈ s.running := ha
            have hane : a ≠ aid := fun hh => hfresh (hh ▸ inv.runSeen a ha)
            show (lookupQ (setQTable s.table k (q ++ [aid])) (keyAt r a)).isSome = true
            rw [hkA a hane]
            by_cases hkk : keyAt s a = k
            · rw [hkk, lookupQ_set_self]
              rfl
            · rw [lookupQ_set_ne s.table k (keyAt s a) (q ++ [aid]) hkk]
              exact inv.runPresent a ha
          · intro k' hk'
            replace hk' : lookupQ (setQTable s.table k (q ++ [aid])) k' = some [] := hk'
            by_cases hkk : k' = k
            · rw [hkk, lookupQ_set_self] at hk'
              simp at hk'
            · rw [lookupQ_set_ne s.table k k' (q ++ [aid]) hkk] at hk'
              obtain ⟨a, ha, hka⟩ := inv.presentHeld k' hk'
              have hane : a ≠ aid := fun hh => hfresh (hh ▸ inv.runSeen a ha)
              exact ⟨a, ha, (hkA a hane).trans hka⟩
          · intro a ha
            replace ha : a ∈ s.running := ha
            exact List.mem_cons_of_mem aid (inv.runSeen a ha)
          · intro k' a ha
            replace ha : a ∈ (lookupQ (setQTable s.table k (q ++ [aid])) k').getD [] := ha
            show a ∈ aid :: s.seen
            by_cases hkk : k' = k
            · rw [hkk, lookupQ_set_self] at ha
              rcases List.mem_append.mp ha with h' | h'
              · exact List.mem_cons_of_mem aid (inv.queuedSeen k a (hqd.symm ▸ h'))
              · rw [List.mem_singleton] at h'
                rw [h']
                exact List.mem_cons_self aid s.seen
            · rw [lookupQ_set_ne s.table k k' (q ++ [aid]) hkk] at ha
              exact List.mem_cons_of_mem aid (inv.queuedSeen k' a ha)
          · intro k' a ha
            replace ha : a ∈ (lookupQ (setQTable s.table k (q ++ [aid])) k').getD [] := ha
            by_cases hkk : k' = k
            · rw [hkk, lookupQ_set_self] at ha
              rw [hkk]
              rcases List.mem_append.mp ha with h' | h'
              · have ha' : a ∈ queueD s k := hqd.symm ▸ h'
                have hane : a ≠ aid := fun hh => hfresh (hh ▸ inv.queuedSeen k a ha')
                exact (hkA a hane).trans (inv.queuedKey k a ha')
              · rw [List.mem_singleton] at h'
                rw [h']
                exact hkAid
            · rw [lookupQ_set_ne s.table k k' (q ++ [aid]) hkk] at ha
              have hane : a ≠ aid := fun hh => hfresh (hh ▸ inv.queuedSeen k' a ha)
              exact (hkA a hane).trans (inv.queuedKey k' a ha)
          · intro k' a ha hmem
            replace ha : a ∈ (lookupQ (setQTable s.table k (q ++ [aid])) k').getD [] := ha
            replace hmem : a ∈ s.running := hmem
            by_cases hkk : k' = k
            · rw [hkk, lookupQ_set_self] at ha
              rcases List.mem_append.mp ha with h' | h'
              · exact inv.queuedNotRunning k a (hqd.symm ▸ h') hmem
              · rw [List.mem_singleton] at h'
                exact hANotRun (h' ▸ hmem)
            · rw [lookupQ_set_ne s.table k k' (q ++ [aid]) hkk] at ha
              exact inv.queuedNotRunning k' a ha hmem
          · intro k'
            show ((lookupQ (setQTable s.table k (q ++ [aid])) k').getD []).Nodup
            by_cases hkk : k' = k
            · rw [hkk, lookupQ_set_self]
              show (q ++ [aid]).Nodup
              rw [List.nodup_append]
              refine ⟨hqd ▸ inv.queueNodup k, List.nodup_singleton aid, ?_⟩
              intro a ha hb
              rw [List.mem_singleton] at hb
              subst hb
              exact hANotQ k (hqd.symm ▸ ha)
            · rw [lookupQ_set_ne s.table k k' (q ++ [aid]) hkk]
              exact inv.queueNodup k'
          · intro a ha
            rcases hTmem a ha with h' | h'
            · rw [h']
              exact List.mem_cons_self aid s.seen
            · exact List.mem_cons_of_mem aid (inv.timerSeen a h')
          · intro a ha hmem
            replace hmem : a ∈ s.resolved := hmem
            rcases hTmem a ha with h' | h'
            · exact hANotRes (h' ▸ hmem)
            · exact inv.timerNotResolved a h' hmem
          · intro a ha hmem
            replace hmem : a ∈ s.running := hmem
            rcases hTmem a ha with h' | h'
            · exact hANotRun (h' ▸ hmem)
            · exact inv.timerNotRunning a h' hmem
          · intro a ha hmem
            replace hmem : a ∈ s.startedLog.map (fun e => e.1) := hmem
            rcases hTmem a ha with h' | h'
            · exact hANotStart (h' ▸ hmem)
            · exact inv.timerNotStarted a h' hmem
          · intro a ha
            show a ∈ (lookupQ (setQTable s.table k (q ++ [aid])) (keyAt r a)).getD []
            rcases hTmem a ha with h' | h'
            · subst h'
              rw [hkAid, lookupQ_set_self]
              show a ∈ q ++ [a]
              exact List.mem_append_right q (List.mem_singleton_self a)
            · have hane : a ≠ aid := fun hh => hfresh (hh ▸ inv.timerSeen a h')
              have h0 := inv.timerQueued a h'
              rw [hkA a hane]
              by_cases hkk : keyAt s a = k
              · rw [hkk, lookupQ_set_self]
                rw [hkk, hqd] at h0
                show a ∈ q ++ [aid]
                exact List.mem_append_left [aid] h0
              · rw [lookupQ_set_ne s.table k (keyAt s a) (q ++ [aid]) hkk]
                exact h0
          · intro a ha
            replace ha : a ∈ s.resolved := ha
            exact List.mem_cons_of_mem aid (inv.resolvedSeen a ha)
          · intro e he
            replace he : e ∈ s.startedLog := he
            exact List.mem_cons_of_mem aid (inv.startedSeen e he)
        split
        · exact hcore (aid :: s.timer)
            (fun a ha => (List.mem_cons.mp ha).imp id id)
            (List.nodup_cons.mpr ⟨hANotTimer, inv.timerNodup⟩)
            (fun _ _ => trivial)
        · exact hcore s.timer (fun a ha => Or.inr ha) inv.timerNodup (fun _ _ => trivial)

/-- Hypothesis bundle holding during the completion sequence for key `k`:
the full safety invariant except that `k` itself may be mid-transition
(present in the table with no running holder). -/
structure PreInv (k : String) (s : LockState) : Prop where
  tableNodup : (s.table.map Prod.fst).Nodup
  mutex : ∀ a ∈ s.running, ∀ b ∈ s.running, keyAt s a = keyAt s b → a = b
  noHolder : ∀ a ∈ s.running, keyAt s a ≠ k
  runPresent : ∀ a ∈ s.running, (lookupQ s.table (keyAt s a)).isSome = true
  presentAway : ∀ k', k' ≠ k → lookupQ s.table k' = some [] →
    ∃ a, a ∈ s.running ∧ keyAt s a = k'
  runningNodup : s.running.Nodup
  runSeen : ∀ a ∈ s.running, a ∈ s.seen
  queuedSeen : ∀ k', ∀ a ∈ queueD s k', a ∈ s.seen
  queuedKey : ∀ k', ∀ a ∈ queueD s k', keyAt s a = k'
  queuedNotRunning : ∀ k', ∀ a ∈ queueD s k', a ∉ s.running
  queueNodup : ∀ k', (queueD s k').Nodup
  timerSeen : ∀ a ∈ s.timer, a ∈ s.seen
  timerNodup : s.timer.Nodup
  timerNotResolved : ∀ a ∈ s.timer, a ∉ s.resolved
  timerNotRunning : ∀ a ∈ s.timer, a ∉ s.running
  timerNotStarted : ∀ a ∈ s.timer, a ∉ s.startedLog.map (fun e => e.1)
  timerQueued : ∀ a ∈ s.timer, a ∈ queueD s (keyAt s a)
  resolvedSeen : ∀ a ∈ s.resolved, a ∈ s.seen
  startedSeen : ∀ e ∈ s.startedLog, e.1 ∈ s.seen

theorem preInv_main (k : String) (s : LockState) (pre : PreInv k s) :
    Inv (match lookupQ s.table k with
         | none => s
         | some l => advanceGo k s l) := by
  cases hql : lookupQ s.table k with
  | none =>
      refine ⟨pre.mutex, pre.runPresent, ?_, pre.runningNodup, pre.runSeen, pre.queuedSeen,
        pre.queuedKey, pre.queuedNotRunning, pre.queueNodup, pre.timerSeen, pre.timerNodup,
        pre.timerNotResolved, pre.timerNotRunning, pre.timerNotStarted, pre.timerQueued,
        pre.resolvedSeen, pre.startedSeen⟩
      intro k' hk'
      by_cases hkk : k' = k
      · rw [hkk, hql] at hk'
        exact absurd hk' (by simp)
      · exact pre.presentAway k' hkk hk'
  | some l =>
      exact advanceGo_inv k l s pre.tableNodup pre.mutex pre.noHolder pre.runPresent
        pre.presentAway pre.runningNodup pre.runSeen pre.queuedSeen pre.queuedKey
        pre.queuedNotRunning pre.queueNodup pre.timerSeen pre.timerNodup pre.timerNotResolved
        pre.timerNotRunning pre.timerNotStarted pre.timerQueued pre.resolvedSeen
        pre.startedSeen hql

theorem preInv_erase (k : String) (s : LockState) (pre : PreInv k s)
    (hemp : lookupQ s.table k = some []) :
    PreInv k { s with table := eraseKeyTable s.table k } := by
  refine ⟨?_, pre.mutex, pre.noHolder, ?_, ?_, pre.runningNodup, pre.runSeen, ?_, ?_, ?_, ?_,
    pre.timerSeen, pre.timerNodup, pre.timerNotResolved, pre.timerNotRunning,
    pre.timerNotStarted, ?_, pre.resolvedSeen, pre.startedSeen⟩
  · exact ((eraseKeyTable_sublist s.table k).map Prod.fst).nodup pre.tableNodup
  · intro a ha
    replace ha : a ∈ s.running := ha
    show (lookupQ (eraseKeyTable s.table k) (keyAt s a)).isSome = true
    rw [lookupQ_erase_ne s.table k (keyAt s a) (pre.noHolder a ha)]
    exact pre.runPresent a ha
  · intro k' hkk hk'
    replace hk' : lookupQ (eraseKeyTable s.table k) k' = some [] := hk'
    rw [lookupQ_erase_ne s.table k k' hkk] at hk'
    exact pre.presentAway k' hkk hk'
  · intro k' a ha
    replace ha : a ∈ (lookupQ (eraseKeyTable s.table k) k').getD [] := ha
    by_cases hkk : k' = k
    · rw [hkk, lookupQ_erase_self s.table k pre.tableNodup] at ha
      simp at ha
    · rw [lookupQ_erase_ne s.table k k' hkk] at ha
      exact pre.queuedSeen k' a ha
  · intro k' a ha
    replace ha : a ∈ (lookupQ (eraseKeyTable s.table k) k').getD [] := ha
    by_cases hkk : k' = k
    · rw [hkk, lookupQ_erase_self s.table k pre.tableNodup] at ha
      simp at ha
    · rw [lookupQ_erase_ne s.table k k' hkk] at ha
      exact pre.queuedKey k' a ha
  · intro k' a ha
    replace ha : a ∈ (lookupQ (eraseKeyTable s.table k) k').getD [] := ha
    by_cases hkk : k' = k
    · rw [hkk, lookupQ_erase_self s.table k pre.tableNodup] at ha
      simp at ha
    · rw [lookupQ_erase_ne s.table k k' hkk] at ha
      exact pre.queuedNotRunning k' a ha
  · intro k'
    show ((lookupQ (eraseKeyTable s.table k) k').getD []).Nodup
    by_cases hkk : k' = k
    · rw [hkk, lookupQ_erase_self s.table k pre.tableNodup]
      simp
    · rw [lookupQ_erase_ne s.table k k' hkk]
      exact pre.queueNodup k'
  · intro a ha
    replace ha : a ∈ s.timer := ha
    have h0 := pre.timerQueued a ha
    show a ∈ (lookupQ (eraseKeyTable s.table k) (keyAt s a)).getD []
    by_cases hkk : keyAt s a = k
    · rw [hkk, queueD, hemp] at h0
      exact absurd h0 (List.not_mem_nil a)
    · rw [lookupQ_erase_ne s.table k (keyAt s a) hkk]
      exact h0

theorem preInv_deliver (k : String) (s : LockState) (pre : PreInv k s) (aid : Nat)
    (hseen : aid ∈ s.seen) (htimer : aid ∉ s.timer) (out : Outcome) :
    PreInv k { s with delivered := s.delivered ++ [(aid, out)]
                      resolved := aid :: s.resolved } := by
  refine ⟨pre.tableNodup, pre.mutex, pre.noHolder, pre.runPresent, pre.presentAway,
    pre.runningNodup, pre.runSeen, pre.queuedSeen, pre.queuedKey, pre.queuedNotRunning,
    pre.queueNodup, pre.timerSeen, pre.timerNodup, ?_, pre.timerNotRunning,
    pre.timerNotStarted, pre.timerQueued, ?_, pre.startedSeen⟩
  · intro a ha hmem
    replace ha : a ∈ s.timer := ha
    replace hmem : a ∈ aid :: s.resolved := hmem
    rcases List.mem_cons.mp hmem with h' | h'
    · exact htimer (h' ▸ ha)
    · exact pre.timerNotResolved a ha h'
  · intro a ha
    replace ha : a ∈ aid :: s.resolved := ha
    rcases List.mem_cons.mp ha with h' | h'
    · rw [h']
      exact hseen
    · exact pre.resolvedSeen a h'

theorem preInv_doneTrue (k : String) (s : LockState) (aid : Nat) (out : Outcome)
    (pre : PreInv k s) (hseen : aid ∈ s.seen) (htimer : aid ∉ s.timer) :
    Inv (doneTrue s aid k out) := by
  rw [doneTrue]
  by_cases hemp : lookupQ s.table k = some []
  · rw [if_pos hemp]
    by_cases hres : aid ∈ s.resolved
    · rw [if_pos (show
        aid ∈ ({ s with table := eraseKeyTable s.table k } : LockState).resolved from hres)]
      exact preInv_main k _ (preInv_erase k s pre hemp)
    · rw [if_neg (show
        aid ∉ ({ s with table := eraseKeyTable s.table k } : LockState).resolved from hres)]
      exact preInv_main k _
        (preInv_deliver k _ (preInv_erase k s pre hemp) aid hseen htimer out)
  · rw [if_neg hemp]
    by_cases hres : aid ∈ s.resolved
    · rw [if_pos hres]
      exact preInv_main k s pre
    · rw [if_neg hres]
      exact preInv_main k _ (preInv_deliver k s pre aid hseen htimer out)

theorem inv_complete {s : LockState} (inv : Inv s)
    (ht : (s.table.map Prod.fst).Nodup) (aid : Nat) (hmem : aid ∈ s.running)
    (out : Outcome) : Inv (completeTask s aid (keyAt s aid) out) := by
  show Inv (doneTrue { s with running := s.running.erase aid } aid (keyAt s aid) out)
  have hkaid : keyAt { s with running := s.running.erase aid } aid = keyAt s aid := rfl
  apply preInv_doneTrue (keyAt s aid) { s with running := s.running.erase aid } aid out
  · refine ⟨ht, ?_, ?_, ?_, ?_, inv.runningNodup.erase aid, ?_, inv.queuedSeen, inv.queuedKey,
      ?_, inv.queueNodup, inv.timerSeen, inv.timerNodup, inv.timerNotResolved, ?_,
      inv.timerNotStarted, inv.timerQueued, inv.resolvedSeen, inv.startedSeen⟩
    · intro a ha b hb hab
      replace ha : a ∈ s.running.erase aid := ha
      replace hb : b ∈ s.running.erase aid := hb
      exact inv.mutex a (List.mem_of_mem_erase ha) b (List.mem_of_mem_erase hb) hab
    · intro a ha
      replace ha : a ∈ s.running.erase aid := ha
      have haw := inv.runningNodup.mem_erase_iff.mp ha
      intro hk
      exact haw.1 (inv.mutex a haw.2 aid hmem hk)
    · intro a ha
      replace ha : a ∈ s.running.erase aid := ha
      exact inv.runPresent a (List.mem_of_mem_erase ha)
    · intro k' hkk hk'
      replace hk' : lookupQ s.table k' = some [] := hk'
      obtain ⟨a, ha, hka⟩ := inv.presentHeld k' hk'
      have hane : a ≠ aid := by
        intro hh
        exact hkk ((hh ▸ hka : keyAt s aid = k').symm)
      exact ⟨a, inv.runningNodup.mem_erase_iff.mpr ⟨hane, ha⟩, hka⟩
    · intro a ha
      replace ha : a ∈ s.running.erase aid := ha
      exact inv.runSeen a (List.mem_of_mem_erase ha)
    · intro k' a ha hr
      replace hr : a ∈ s.running.erase aid := hr
      exact inv.queuedNotRunning k' a ha (List.mem_of_mem_erase hr)
    · intro a ha hr
      replace hr : a ∈ s.running.erase aid := hr
      exact inv.timerNotRunning a ha (List.mem_of_mem_erase hr)
  · exact inv.runSeen aid hmem
  · intro hh
    exact inv.timerNotRunning aid hh hmem

theorem inv_init : Inv initState := by
  refine ⟨?_, ?_, ?_, ?_, ?_, ?_, ?_, ?_, ?_, ?_, ?_, ?_, ?_, ?_, ?_, ?_, ?_⟩ <;>
    simp [initState, queueD, lookupQ]

theorem reachable_inv {cfg : Config} {s : LockState} (h : Reachable cfg s) : Inv s := by
  induction h with
  | init => exact inv_init
  | step hr hs ih =>
      cases hs with
      | acquire s' aid k optT hfresh heq => exact inv_acquire ih aid k optT hfresh heq
      | fire aid hmem => exact inv_fire ih aid hmem
      | complete aid e hmem =>
          exact inv_complete ih (reachable_tableNodup hr) aid hmem (Outcome.fromTask e)

/-! Lemmas about the batch-acquisition chain. -/

theorem acquireBatchBuild_fst (keys : List String) (opts : AsyncLockOptions) :
    (acquireBatchBuild keys opts).1 =
      keys.foldr (fun key c => Chain.acquireThen key opts c) Chain.task := by
  show keys.reverse.foldl (fun fnx key => getFn key opts fnx) Chain.task = _
  have hgen : ∀ (ks : List String) (c : Chain),
      ks.reverse.foldl (fun fnx key => getFn key opts fnx) c =
        ks.foldr (fun key acc => Chain.acquireThen key opts acc) c := by
    intro ks
    induction ks with
    | nil => intro c; rfl
    | cons p t ih =>
        intro c
        rw [List.reverse_cons, List.foldl_append, ih c]
        rfl
  exact hgen keys Chain.task

theorem chainLevels_foldr (keys : List String) (opts : AsyncLockOptions) :
    chainLevels (keys.foldr (fun key c => Chain.acquireThen key opts c) Chain.task) =
      keys.map (fun k => (k, opts)) := by
  induction keys with
  | nil => rfl
  | cons p t ih => simp [chainLevels, ih]

theorem runNested_foldr (keys : List String) (opts : AsyncLockOptions) :
    runNested (keys.foldr (fun key c => Chain.acquireThen key opts c) Chain.task) =
      keys.map BEvent.acq ++ BEvent.runTask :: keys.reverse.map BEvent.rel := by
  induction keys with
  | nil => rfl
  | cons p t ih => simp [runNested, ih]

/-! Concrete execution traces used to witness the reachability-based
theorems.  Trace A (key `"a"`, default configuration): acquisition 0 runs
immediately; acquisition 1 queues with a 5 ms per-call timeout; acquisition
2 queues with no timeout; 1's timer fires (ghost); 0 completes, which skips
ghost 1 and starts 2.  Trace B (`maxPending = 1`, key `"b"`): acquisition 10
runs immediately and 11 queues, filling the queue to the limit. -/

/-- Helper unwrapping a successful `acquireFn` result. -/
def expectOk : Except String LockState → LockState
  | Except.ok s => s
  | Except.error _ => initState

/-- Default configuration (`new AsyncLock()`). -/
def cfgA : Config := mkConfig {}

def exA1 : LockState := expectOk (acquireFn cfgA initState 0 "a" true none)

def exA2 : LockState := expectOk (acquireFn cfgA exA1 1 "a" true (some 5))

def exA3 : LockState := expectOk (acquireFn cfgA exA2 2 "a" true none)

def exA4 : LockState := fireTimer exA3 1

def exA5 : LockState := completeTask exA4 0 (keyAt exA4 0) (Outcome.fromTask none)

theorem exA2_reachable : Reachable cfgA exA2 :=
  Reachable.step
    (Reachable.step Reachable.init (Step.acquire initState exA1 0 "a" none (by decide) rfl))
    (Step.acquire exA1 exA2 1 "a" (some 5) (by decide) rfl)

theorem exA5_reachable : Reachable cfgA exA5 :=
  Reachable.step
    (Reachable.step
      (Reachable.step exA2_reachable (Step.acquire exA2 exA3 2 "a" none (by decide) rfl))
      (Step.fire exA3 1 (by decide)))
    (Step.complete exA4 0 none (by decide))

/-- Configuration with `maxPending = 1`. -/
def cfgB : Config := mkConfig { maxPending := some 1 }

def exB1 : LockState := expectOk (acquireFn cfgB initState 10 "b" true none)

def exB2 : LockState := expectOk (acquireFn cfgB exB1 11 "b" true none)

theorem exB2_reachable : Reachable cfgB exB2 :=
  Reachable.step
    (Reachable.step Reachable.init (Step.acquire initState exB1 10 "b" none (by decide) rfl))
    (Step.acquire exB1 exB2 11 "b" none (by decide) rfl)

/-! Claim theorems. -/

/-- C1.  Mutual exclusion per key: in every reachable state of the manager,
at most one acquisition's task body is running for a given key — any two
running acquisitions with the same captured key are the same acquisition.
Since this holds at every state of every execution, the execution intervals
of two different acquisitions on one key can never overlap; the only
transition that starts a queued waiter is the current holder's completion
(`Step.complete`, running `done(true, ...)`). -/
theorem mutual_exclusion_per_key (cfg : Config) (s : LockState) (a b : Nat)
    (h : Reachable cfg s) (ha : a ∈ s.running) (hb : b ∈ s.running)
    (hk : keyAt s a = keyAt s b) : a = b :=
  (reachable_inv h).mutex a ha b hb hk

theorem mutual_exclusion_per_key_witness :
    2 ∈ exA5.running ∧ keyAt exA5 2 = keyAt exA5 2 ∧ 2 = 2 :=
  ⟨by decide, rfl,
    mutual_exclusion_per_key cfgA exA5 2 2 exA5_reachable (by decide) (by decide) rfl⟩

/-- C2.  FIFO service with in-place skipping: for a fixed key, the enqueue
history equals the service (dequeue) history followed by the current queue —
so waiters are served strictly in arrival order, each timed-out ghost still
consuming exactly one service step without reordering the remaining live
waiters — and the start history of dequeued waiters equals the live
(non-skipped) service history, so task start order equals enqueue order and
a skipped waiter's task body never runs. -/
theorem fifo_service_with_skip (cfg : Config) (s : LockState) (k : String)
    (h : Reachable cfg s) :
    pushFor s k = serveFor s k ++ queueD s k ∧
    startedQueuedFor s k = liveServeFor s k :=
  reachable_logInv h k

theorem fifo_service_with_skip_witness :
    pushFor exA5 "a" = [1, 2] ∧ serveFor exA5 "a" = [1, 2] ∧ queueD exA5 "a" = [] ∧
    startedQueuedFor exA5 "a" = [2] ∧ liveServeFor exA5 "a" = [2] ∧
    (pushFor exA5 "a" = serveFor exA5 "a" ++ queueD exA5 "a" ∧
      startedQueuedFor exA5 "a" = liveServeFor exA5 "a") :=
  ⟨by decide, by decide, by decide, by decide, by decide,
    fifo_service_with_skip cfgA exA5 "a" exA5_reachable⟩

/-- C3.  Exactly-once outcome delivery: in every reachable state the
delivery history contains each acquisition id at most once (first delivery
wins, across the timeout, completion and rejection paths, which all check
and set the shared `resolved` flag), and a further `done(true, ...)` for an
already-resolved acquisition delivers nothing while still performing the
queue bookkeeping (key removal / starting the next waiter). -/
theorem exactly_once_delivery (cfg : Config) (s : LockState) (h : Reachable cfg s) :
    (s.delivered.map Prod.fst).Nodup ∧
    ∀ (aid : Nat) (k : String) (out : Outcome), aid ∈ s.resolved →
      (doneTrue s aid k out).delivered = s.delivered := by
  refine ⟨(reachable_deliveryInv h).2, ?_⟩
  intro aid k out hres
  rw [doneTrue]
  by_cases hemp : lookupQ s.table k = some []
  · rw [if_pos hemp, if_pos (show
      aid ∈ ({ s with table := eraseKeyTable s.table k } : LockState).resolved from hres)]
    cases hql : lookupQ ({ s with table := eraseKeyTable s.table k } : LockState).table k with
    | none => rfl
    | some l => exact (advanceGo_frame k l _).1
  · rw [if_neg hemp, if_pos hres]
    cases hql : lookupQ s.table k with
    | none => rfl
    | some l => exact (advanceGo_frame k l s).1

theorem exactly_once_delivery_witness :
    (exA5.delivered.map Prod.fst).Nodup ∧ 1 ∈ exA5.resolved ∧
    (doneTrue exA5 1 "a" (Outcome.fromTask none)).delivered = exA5.delivered :=
  ⟨(exactly_once_delivery cfgA exA5 exA5_reachable).1, by decide,
    (exactly_once_delivery cfgA exA5 exA5_reachable).2 1 "a" (Outcome.fromTask none) (by decide)⟩

/-- C4.  Queued-waiter timeout: when an armed timer fires, the caller
immediately receives the `timedOut` error, the lock table (hence the waiter's
queue slot) is untouched and the waiter stays queued at its key, no task
body starts or stops; a timer is only ever armed for an acquisition that is
not running and has never started, and every running acquisition's timer is
cleared; the effective timeout is the per-call option when non-zero,
overriding the manager default (`opts.timeout || this._timeout`). -/
theorem queued_waiter_timeout (cfg : Config) (s : LockState) (aid : Nat)
    (h : Reachable cfg s) (hmem : aid ∈ s.timer) :
    (fireTimer s aid).delivered = s.delivered ++ [(aid, Outcome.timedOut)] ∧
    (fireTimer s aid).table = s.table ∧
    (fireTimer s aid).running = s.running ∧
    (fireTimer s aid).startedLog = s.startedLog ∧
    aid ∈ queueD (fireTimer s aid) (keyAt (fireTimer s aid) aid) ∧
    aid ∉ s.running ∧
    aid ∉ s.startedLog.map (fun e => e.1) ∧
    (∀ b ∈ s.running, b ∉ s.timer) ∧
    (∀ t : Nat, t ≠ 0 → orElseNum (some t) cfg.timeout = t) := by
  have inv := reachable_inv h
  have hnr : aid ∉ s.resolved := inv.timerNotResolved aid hmem
  have hred : fireTimer s aid = { s with timer := s.timer.erase aid
                                         delivered := s.delivered ++ [(aid, Outcome.timedOut)]
                                         resolved := aid :: s.resolved } := by
    show doneFalse { s with timer := s.timer.erase aid } aid Outcome.timedOut = _
    rw [doneFalse, if_neg (show
      aid ∉ ({ s with timer := s.timer.erase aid } : LockState).resolved from hnr)]
  refine ⟨by rw [hred], by rw [hred], by rw [hred], by rw [hred], ?_,
    inv.timerNotRunning aid hmem, inv.timerNotStarted aid hmem, ?_, ?_⟩
  · rw [hred]
    exact inv.timerQueued aid hmem
  · intro b hb hbt
    exact inv.timerNotRunning b hbt hb
  · intro t htz
    simp [orElseNum, htz]

theorem queued_waiter_timeout_witness :
    1 ∈ exA2.timer ∧
    (fireTimer exA2 1).delivered = exA2.delivered ++ [(1, Outcome.timedOut)] ∧
    1 ∈ queueD (fireTimer exA2 1) (keyAt (fireTimer exA2 1) 1) ∧
    1 ∉ exA2.running :=
  ⟨by decide, (queued_waiter_timeout cfgA exA2 1 exA2_reachable (by decide)).1,
    (queued_waiter_timeout cfgA exA2 1 exA2_reachable (by decide)).2.2.2.2.1,
    (queued_waiter_timeout cfgA exA2 1 exA2_reachable (by decide)).2.2.2.2.2.1⟩

/-- C5.  Admission limit atomicity: an `acquire` on a key whose queue has
already reached `maxPending` fails at once with the `tooManyPending` error,
and the resulting state differs from the old one only in the new
acquisition's bookkeeping (`seen`/`keyOf`) and its delivered/resolved error
— the lock table, every queue, the running set, the start, enqueue and
service histories and the timers are all left unchanged, no key is removed
and no waiter is started. -/
theorem admission_limit_rejection (cfg : Config) (s : LockState) (aid : Nat) (k : String)
    (q : List Nat) (optT : Option Nat) (h : Reachable cfg s) (hfresh : aid ∉ s.seen)
    (hq : lookupQ s.table k = some q) (hfull : cfg.maxPending ≤ q.length) :
    acquireFn cfg s aid k true optT =
      Except.ok { s with seen := aid :: s.seen
                         keyOf := (aid, k) :: s.keyOf
                         delivered := s.delivered ++ [(aid, Outcome.tooManyPending)]
                         resolved := aid :: s.resolved } := by
  have inv := reachable_inv h
  have hnr : aid ∉ s.resolved := fun hh => hfresh (inv.resolvedSeen aid hh)
  simp only [acquireFn, Bool.not_true, Bool.false_eq_true, if_neg, not_false_iff, hq, hfull,
    if_true, Except.ok.injEq]
  rw [doneFalse, if_neg (show
    aid ∉ ({ s with seen := aid :: s.seen, keyOf := (aid, k) :: s.keyOf } : LockState).resolved
    from hnr)]

theorem admission_limit_rejection_witness :
    12 ∉ exB2.seen ∧ lookupQ exB2.table "b" = some [11] ∧ cfgB.maxPending ≤ [11].length ∧
    acquireFn cfgB exB2 12 "b" true none =
      Except.ok { exB2 with seen := 12 :: exB2.seen
                            keyOf := (12, "b") :: exB2.keyOf
                            delivered := exB2.delivered ++ [(12, Outcome.tooManyPending)]
                            resolved := 12 :: exB2.resolved } :=
  ⟨by decide, by decide, by decide,
    admission_limit_rejection cfgB exB2 12 "b" [11] none exB2_reachable (by decide) (by decide)
      (by decide)⟩

/-- C6.  Batch nesting order: `_acquireBatch` builds its chain by folding
`getFn` over the reversed key array, which yields exactly one nested
single-key acquisition per key, outermost `keys[0]` first, innermost last,
all sharing the same options.  Launching the chain acquires the keys in the
given order, runs the task exactly once after the last (innermost) key is
acquired and before any release — i.e. while all keys are held
simultaneously — and then releases the keys innermost first, outermost last
(the mirror order), as each wrapping acquisition's completion fires. -/
theorem batch_nesting_order (keys : List String) (opts : AsyncLockOptions) :
    chainLevels (acquireBatchBuild keys opts).1 = keys.map (fun k => (k, opts)) ∧
    runNested (acquireBatchBuild keys opts).1 =
      keys.map BEvent.acq ++ BEvent.runTask :: keys.reverse.map BEvent.rel := by
  rw [acquireBatchBuild_fst]
  exact ⟨chainLevels_foldr keys opts, runNested_foldr keys opts⟩

/-- C7.  Batch failure propagation: if every key before `bad` is admitted
and acquiring `bad` fails (timeout or pending-limit rejection, abstracted by
the environment), the whole batch delivers exactly that error, the task and
everything below `bad` never run, and every already-acquired outer key is
released normally — the event list shows one release for each acquired key,
in mirror order, so no outer key remains held after the failure is
delivered. -/
theorem batch_failure_propagation (pre post : List String) (bad : String) (e : String)
    (opts : AsyncLockOptions) (env : String → Option String)
    (hpre : ∀ k ∈ pre, env k = none) (hbad : env bad = some e) :
    runNestedE (acquireBatchBuild (pre ++ bad :: post) opts).1 env =
      (pre.map BEvent.acq ++ BEvent.acqFail bad :: pre.reverse.map BEvent.rel, some e) := by
  rw [acquireBatchBuild_fst]
  induction pre with
  | nil =>
      simp only [List.nil_append, List.foldr_cons, runNestedE, hbad, List.map_nil,
        List.reverse_nil, List.nil_append]
  | cons p pre ih =>
      have hp : env p = none := hpre p (List.mem_cons_self p pre)
      have ihx := ih (fun k hk => hpre k (List.mem_cons_of_mem p hk))
      simp only [List.cons_append, List.foldr_cons, runNestedE, hp, List.append_eq]
      rw [ihx]
      simp

/-- Environment for the batch-failure witness: acquiring `"b"` times out,
everything else is admitted. -/
def envW : String → Option String :=
  fun k => if k = "b" then some "async-lock timed out" else none

theorem batch_failure_propagation_witness :
    (∀ k ∈ ["a"], envW k = none) ∧ envW "b" = some "async-lock timed out" ∧
    runNestedE (acquireBatchBuild (["a"] ++ "b" :: []) ⟨none, none⟩).1 envW =
      (["a"].map BEvent.acq ++ BEvent.acqFail "b" :: (["a"].reverse).map BEvent.rel,
        some "async-lock timed out") :=
  ⟨by decide, by decide,
    batch_failure_propagation ["a"] [] "b" "async-lock timed out" ⟨none, none⟩ envW
      (by decide) (by decide)⟩

/-- C8 counterexample: a batch call with an empty key list is *not* reported
as an error — `_acquireBatch` has no emptiness check, the reversed fold
degenerates to the bare task, and launching it immediately runs the task
with no manager error and no key acquired, contradicting the claim that a
batch call with an empty key list reports an error immediately. -/
theorem batch_empty_key_list_runs_task :
    (runNestedE (acquireBatchBuild [] ⟨none, none⟩).1 (fun _ => none)).2 = none ∧
    BEvent.runTask ∈ (runNestedE (acquireBatchBuild [] ⟨none, none⟩).1 (fun _ => none)).1 := by
  constructor
  · rfl
  · rw [show (runNestedE (acquireBatchBuild [] ⟨none, none⟩).1 (fun _ => none)).1 =
      [BEvent.runTask] from rfl]
    exact List.mem_singleton_self BEvent.runTask

/-- C8 as amended: a *single-key* call with a non-callable task throws the
`"You must pass a function to execute"` error immediately and synchronously,
before any queueing or lock-state mutation (`acquireFn` returns the error
and no new state); a batch call with an empty key list is not reported as an
error at all — the chain degenerates to the bare task, which is invoked
immediately, without acquiring any key and with no manager error. -/
theorem malformed_call_amended :
    (∀ (cfg : Config) (s : LockState) (aid : Nat) (k : String) (optT : Option Nat),
        acquireFn cfg s aid k false optT =
          Except.error "You must pass a function to execute") ∧
    (∀ opts : AsyncLockOptions, (acquireBatchBuild [] opts).1 = Chain.task) ∧
    (∀ (opts : AsyncLockOptions) (env : String → Option String),
        runNestedE (acquireBatchBuild [] opts).1 env = ([BEvent.runTask], none)) :=
  ⟨fun _ _ _ _ _ => rfl, fun _ => rfl, fun _ _ => rfl⟩

/-- C9.  Lock-table presence and `isBusy`: in every reachable state a key
has a lock-table entry exactly when it is held (some running acquisition
captured it) or has waiters (its queue is non-empty); `isBusy(key)` returns
`true` exactly when the key has an entry, and `isBusy()` with no argument
returns `true` exactly when some key has an entry.  `isBusy` is a pure
function of the state in this embedding — it performs no mutation. -/
theorem lock_table_presence_isBusy (cfg : Config) (s : LockState) (k : String)
    (h : Reachable cfg s) :
    (isBusy s (some k) = true ↔
      (∃ a, a ∈ s.running ∧ keyAt s a = k) ∨ queueD s k ≠ []) ∧
    (isBusy s none = true ↔ ∃ k', isBusy s (some k') = true) := by
  have inv := reachable_inv h
  constructor
  · constructor
    · intro hb
      simp only [isBusy] at hb
      cases hql : lookupQ s.table k with
      | none =>
          rw [hql] at hb
          simp at hb
      | some q =>
          cases q with
          | nil => exact Or.inl (inv.presentHeld k hql)
          | cons w rest =>
              refine Or.inr ?_
              rw [queueD, hql]
              simp
    · intro hcase
      simp only [isBusy]
      rcases hcase with ⟨a, ha, hka⟩ | hql
      · rw [← hka]
        exact inv.runPresent a ha
      · rw [queueD] at hql
        cases hqq : lookupQ s.table k with
        | none =>
            rw [hqq] at hql
            simp at hql
        | some q => rfl
  · constructor
    · intro hb
      simp only [isBusy, decide_eq_true_eq] at hb
      cases htab : s.table with
      | nil =>
          rw [htab] at hb
          simp at hb
      | cons p t =>
          obtain ⟨k0, q0⟩ := p
          refine ⟨k0, ?_⟩
          simp only [isBusy]
          rw [htab]
          simp [lookupQ]
    · intro hex
      obtain ⟨k', hk'⟩ := hex
      simp only [isBusy, decide_eq_true_eq]
      simp only [isBusy] at hk'
      cases htab : s.table with
      | nil =>
          rw [htab] at hk'
          simp [lookupQ] at hk'
      | cons p t => simp

theorem lock_table_presence_isBusy_witness :
    (isBusy exA5 (some "a") = true ↔
      (∃ a, a ∈ exA5.running ∧ keyAt exA5 a = "a") ∨ queueD exA5 "a" ≠ []) ∧
    (isBusy exA5 none = true ↔ ∃ k', isBusy exA5 (some k') = true) :=
  lock_table_presence_isBusy cfgA exA5 "a" exA5_reachable

/-- C10.  In-place reversal of the caller's key array: `_acquireBatch`
reverses the caller-supplied `keys` array in place while building the chain
(`keys.reverse()` mutates and returns the array), so after the call the
caller observes its own array in reversed order; at the concrete input
`["a", "b"]` the observed array `["b", "a"]` differs from the one passed in,
so the argument is not treated as read-only. -/
theorem batch_reverses_caller_array (keys : List String) (opts : AsyncLockOptions) :
    (acquireBatchBuild keys opts).2 = keys.reverse ∧
    (acquireBatchBuild ["a", "b"] opts).2 ≠ ["a", "b"] :=
  ⟨rfl, by
    rw [show (acquireBatchBuild ["a", "b"] opts).2 = ["b", "a"] from rfl]
    decide⟩

end AsyncLock
